import Mathlib

/-!
Verification of the duviz disk-usage visualizer.

The development shallowly embeds the three source files of the repository:

* `src/layout.rs` — the squarified-treemap and grid layout algorithms.
  The Rust code computes with `f64`; every value that arises there is a
  nonnegative rational number, which we track exactly as an unnormalized
  fraction (`F` below).  Rust `f64::round` (round half away from zero)
  followed by an `as u16` saturating cast is modelled by `roundU16`,
  and the IEEE behaviour of division by zero (`x / 0.0 = inf`,
  `0.0 / 0.0 = NaN`, `inf as u16 = 65535`, `NaN as u16 = 0`) is modelled
  explicitly in `divRoundU16`.  `u16` saturating addition is `satAdd`.

* `src/scan.rs` — the scan engine.  Filesystem access and the external
  `du` sizing command are modelled as oracles (`Fs`), a directory read as
  an explicit `Except`-value carrying the enumerated entries, and each
  entry as a `DirEntry` record of the probes the code performs on it.
  Cancellation, progress messages and thread scheduling are concurrency
  effects: the model captures an uncancelled scan run, whose terminal
  message (`Done` data or `Error` string) is the `Except ScanDone` result.
  The worker pool of `du_sizes_parallel` pops jobs from the back of a
  shared list; the model uses the single-worker pop order, and no theorem
  below depends on the order of the result batch.

* `src/main.rs` — the cache/orchestration layer (`App`): `start_scan`,
  the `Done`-message handler of `update_scan`, and `invalidate_cache_for`.
  The `HashMap` caches are modelled as shadowing association lists.
-/

/-! ## Exact model of the nonnegative f64 values of layout.rs -/

/-- An unnormalized fraction `n / d`.  All fractions built by the layout
model have positive denominators. -/
structure F where
  n : ℤ
  d : ℤ
deriving DecidableEq, Repr

/-- Embedding of a machine integer (`u64`/`u16` widened to f64). -/
def F.ofN (k : ℕ) : F := ⟨k, 1⟩

def F.add (a b : F) : F := ⟨a.n * b.d + b.n * a.d, a.d * b.d⟩

def F.mul (a b : F) : F := ⟨a.n * b.n, a.d * b.d⟩

def F.div (a b : F) : F := ⟨a.n * b.d, a.d * b.n⟩

/-- Comparison `a <= b`; faithful for fractions with positive denominators. -/
def F.ble (a b : F) : Bool := decide (a.n * b.d ≤ b.n * a.d)

/-- `f64::min` via `<=`. -/
def F.bmin (a b : F) : F := if F.ble a b then a else b

/-- `f64::max` via `<=`. -/
def F.bmax (a b : F) : F := if F.ble a b then b else a

/-- The rational value denoted by a fraction. -/
def F.toRat (a : F) : ℚ := (a.n : ℚ) / (a.d : ℚ)

/-- `u16` saturating addition. -/
def satAdd (a b : ℕ) : ℕ := min (a + b) 65535

/-- Rust `q.round() as u16` for a nonnegative finite value `q` (round half
away from zero, saturating cast).  Callers guarantee `0 < q.d` and `0 ≤ q.n`. -/
def roundU16 (q : F) : ℕ := min (((2 * q.n + q.d) / (2 * q.d)).toNat) 65535

/-- Rust `(a / b).round() as u16` including the IEEE division-by-zero
behaviour: `a / 0.0` is `inf` for `a > 0` (cast saturates to 65535) and
`0.0 / 0.0` is NaN (cast gives 0). -/
def divRoundU16 (a b : F) : ℕ :=
  if b.n = 0 then (if a.n = 0 then 0 else 65535)
  else roundU16 (F.div a b)

def sumF (l : List F) : F := l.foldl F.add (F.ofN 0)

/-- An f64 value that may be `f64::MAX` or `+inf`.  Inside the layout code
these two are interchangeable: they are only ever compared with `<=`
against each other or against ordinary finite values. -/
inductive EF
  | fin (q : F)
  | inf
deriving DecidableEq, Repr

def EF.ble : EF → EF → Bool
  | .fin a, .fin b => F.ble a b
  | .fin _, .inf => true
  | .inf, .fin _ => false
  | .inf, .inf => true

def EF.toERat : EF → WithTop ℚ
  | .fin q => (q.toRat : WithTop ℚ)
  | .inf => ⊤

/-! ## layout.rs -/

/-- `ratatui::layout::Rect`; the four fields are `u16` in the source. -/
structure Rect where
  x : ℕ
  y : ℕ
  width : ℕ
  height : ℕ
deriving DecidableEq, Repr

structure BlockRect where
  index : ℕ
  rect : Rect
deriving DecidableEq, Repr

/-- `worst_ratio_stats` of layout.rs.  The `f64::MAX` result of the
degenerate branch and the `+inf` produced by `sum2 / (s2 * min)` when
`short = 0` are both modelled as `EF.inf`. -/
def worst_ratio_stats (mn mx sm short : F) : EF :=
  if F.ble mn (F.ofN 0) || F.ble sm (F.ofN 0) then EF.inf
  else if short.n = 0 then EF.inf
  else
    let s2 := F.mul short short
    let sum2 := F.mul sm sm
    EF.fin (F.bmax (F.div (F.mul s2 mx) sum2) (F.div sum2 (F.mul s2 mn)))

/-- Inner loop of `layout_row`, horizontal orientation: emit the blocks of
one row, the last item absorbing the remaining width. -/
def rowBlocksH (rect : Rect) (h : ℕ) : List (ℕ × F) → ℕ → ℕ → List BlockRect
  | [], _, _ => []
  | [(idx, _)], x, used => [⟨idx, ⟨x, rect.y, rect.width - used, h⟩⟩]
  | (idx, a) :: b :: rest, x, used =>
      let w0 := divRoundU16 a (F.ofN h)
      let w := if w0 = 0 then 1 else w0
      ⟨idx, ⟨x, rect.y, w, h⟩⟩ :: rowBlocksH rect h (b :: rest) (satAdd x w) (satAdd used w)

/-- Inner loop of `layout_row`, vertical orientation. -/
def rowBlocksV (rect : Rect) (w : ℕ) : List (ℕ × F) → ℕ → ℕ → List BlockRect
  | [], _, _ => []
  | [(idx, _)], y, used => [⟨idx, ⟨rect.x, y, w, rect.height - used⟩⟩]
  | (idx, a) :: b :: rest, y, used =>
      let h0 := divRoundU16 a (F.ofN w)
      let h := if h0 = 0 then 1 else h0
      ⟨idx, ⟨rect.x, y, w, h⟩⟩ :: rowBlocksV rect w (b :: rest) (satAdd y h) (satAdd used h)

/-- `layout_row` of layout.rs: lay out one closed row inside `rect` and
return the blocks together with the shrunken remaining rectangle. -/
def layout_row (row : List (ℕ × F)) (rect : Rect) (isLast : Bool) : List BlockRect × Rect :=
  let row_area : F := sumF (row.map (fun p => p.2))
  if rect.height ≤ rect.width then
    let h0 := divRoundU16 row_area (F.ofN rect.width)
    let h1 := if h0 = 0 then 1 else h0
    let h2 := if rect.height < h1 then rect.height else h1
    let h := if isLast then rect.height else h2
    (rowBlocksH rect h row rect.x 0,
     ⟨rect.x, satAdd rect.y h, rect.width, rect.height - h⟩)
  else
    let w0 := divRoundU16 row_area (F.ofN rect.height)
    let w1 := if w0 = 0 then 1 else w0
    let w2 := if rect.width < w1 then rect.width else w1
    let w := if isLast then rect.width else w2
    (rowBlocksV rect w row rect.y 0,
     ⟨satAdd rect.x w, rect.y, rect.width - w, rect.height⟩)

/-- The greedy row-building loop of `treemap` (lines 39–79 of layout.rs).
The list argument is the tail of `normalized` not yet consumed; `row` and
the three running statistics mirror the mutable state of the loop.  The
`rest.isEmpty` flag is the `i >= normalized.len()` test at the close of a
row, and the trailing `if` is the final `if !row.is_empty()` block. -/
def treemapGo (rect : Rect) (row : List (ℕ × F)) (rmin rmax rsum : F) :
    List (ℕ × F) → List BlockRect
  | [] => if row.isEmpty then [] else (layout_row row rect true).1
  | next :: rest =>
    if row.isEmpty then
      treemapGo rect [next] next.2 next.2 next.2 rest
    else
      let short : F := F.ofN (min rect.width rect.height)
      let before := worst_ratio_stats rmin rmax rsum short
      let nmin := F.bmin rmin next.2
      let nmax := F.bmax rmax next.2
      let nsum := F.add rsum next.2
      let after := worst_ratio_stats nmin nmax nsum short
      if EF.ble after before then
        treemapGo rect (row ++ [next]) nmin nmax nsum rest
      else
        let pr := layout_row row rect rest.isEmpty
        pr.1 ++ treemapGo pr.2 [next] next.2 next.2 next.2 rest

/-- Descending weight order used by the `sort_by` calls of layout.rs.
Ties compare `Equal`, so the stable sort keeps their original order;
`List.insertionSort` is stable with the same comparator, hence produces
the same list as the stable sort of the source. -/
def descWeight : (ℕ × F) → (ℕ × F) → Prop := fun a b => F.ble b.2 a.2 = true

instance : DecidableRel descWeight := fun a b => by unfold descWeight; infer_instance

/-- `treemap` of layout.rs. -/
def treemap (sizes : List (ℕ × ℕ)) (area : Rect) : List BlockRect :=
  if sizes.isEmpty ∨ area.width = 0 ∨ area.height = 0 then [] else
  let total : ℕ := (sizes.map (fun p => p.2)).sum
  let area_f : F := F.mul (F.ofN area.width) (F.ofN area.height)
  let items : List (ℕ × F) :=
    sizes.map (fun p => (p.1, if total = 0 then F.ofN 1 else F.bmax (F.ofN p.2) (F.ofN 1)))
  let sorted := items.insertionSort descWeight
  let total_f : F := sumF (sorted.map (fun p => p.2))
  let normalized := sorted.map (fun p => (p.1, F.mul (F.div p.2 total_f) area_f))
  treemapGo area [] (F.ofN 0) (F.ofN 0) (F.ofN 0) normalized

/-- Ceiling square root: the smallest `k` with `m ≤ k * k`.  This is the
value of `f64::from(n as u32).sqrt().ceil()` (exact for all `u32` inputs). -/
def ceilSqrt (m : ℕ) : ℕ :=
  match (List.range (m + 1)).find? (fun k => decide (m ≤ k * k)) with
  | some k => k
  | none => m

/-- `f64::from(n as u32).sqrt().ceil() as u16`: the cast saturates at 65535. -/
def ceilSqrtU16 (m : ℕ) : ℕ := min (ceilSqrt m) 65535

/-- One step of `rows_vec[i % rows].push(item)`. -/
def pushAt (v : List (List (ℕ × F))) (k : ℕ) (a : ℕ × F) : List (List (ℕ × F)) :=
  v.set k (v.getD k [] ++ [a])

/-- The round-robin distribution loop of `grid_layout`. -/
def distGo (rows : ℕ) : List (ℕ × F) → ℕ → List (List (ℕ × F)) → List (List (ℕ × F))
  | [], _, v => v
  | a :: rest, i, v => distGo rows rest (i + 1) (pushAt v (i % rows) a)

def distRR (rows : ℕ) (items : List (ℕ × F)) : List (List (ℕ × F)) :=
  distGo rows items 0 (List.replicate rows [])

/-- Inner per-row loop of `grid_layout`: widths proportional to the row
sum, minimum 1, the last item absorbing the remaining width. -/
def gridRowBlocks (areaW : ℕ) (rsum : F) (y h : ℕ) : List (ℕ × F) → ℕ → ℕ → List BlockRect
  | [], _, _ => []
  | [(idx, _)], x, used => [⟨idx, ⟨x, y, areaW - used, h⟩⟩]
  | (idx, v) :: b :: rest, x, used =>
      let w0 := roundU16 (F.mul (F.div v rsum) (F.ofN areaW))
      let w := if w0 = 0 then 1 else w0
      ⟨idx, ⟨x, y, w, h⟩⟩ :: gridRowBlocks areaW rsum y h (b :: rest) (satAdd x w) (satAdd used w)

/-- Outer loop of `grid_layout` over `rows_vec`; `y` and `rem` mirror the
mutable `y` and `remaining_height`. -/
def gridRows (area : Rect) (totalf : F) : List (List (ℕ × F)) → ℕ → ℕ → List BlockRect
  | [], _, _ => []
  | row :: rest, y, rem =>
    if row.isEmpty ∨ rem = 0 then gridRows area totalf rest y rem
    else
      let rsum : F := sumF (row.map (fun p => p.2))
      let h0 := roundU16 (F.mul (F.div rsum totalf) (F.ofN area.height))
      let h1 := if h0 = 0 then 1 else h0
      let maxh := rem - rest.length
      let h2 := if maxh < h1 then maxh else h1
      let h := if rest.isEmpty ∨ rem < h2 then rem else h2
      gridRowBlocks area.width rsum y h row area.x 0 ++
        gridRows area totalf rest (satAdd y h) (rem - h)

/-- `grid_layout` of layout.rs. -/
def grid_layout (sizes : List (ℕ × ℕ)) (area : Rect) : List BlockRect :=
  if sizes.isEmpty ∨ area.width = 0 ∨ area.height = 0 then [] else
  let total : ℕ := (sizes.map (fun p => p.2)).sum
  let total_f : F := if total = 0 then F.ofN sizes.length else F.ofN total
  let items : List (ℕ × F) :=
    sizes.map (fun p => (p.1, if total = 0 then F.ofN 1 else F.bmax (F.ofN p.2) (F.ofN 1)))
  let sorted := items.insertionSort descWeight
  let n := sorted.length
  let rows0 := max (ceilSqrtU16 (n % 4294967296)) 1
  let rows := if area.height < rows0 then max area.height 1 else rows0
  gridRows area total_f (distRR rows sorted) area.y area.height

/-- Total integer area of a list of blocks. -/
def sumArea (bs : List BlockRect) : ℕ :=
  (bs.map (fun b => b.rect.width * b.rect.height)).sum

/-- Two rectangles have disjoint interiors. -/
def rectDisjoint (r1 r2 : Rect) : Prop :=
  r1.x + r1.width ≤ r2.x ∨ r2.x + r2.width ≤ r1.x ∨
  r1.y + r1.height ≤ r2.y ∨ r2.y + r2.height ≤ r1.y

instance (r1 r2 : Rect) : Decidable (rectDisjoint r1 r2) := by
  unfold rectDisjoint; infer_instance

/-! ## Area lower bound for the treemap -/

theorem sumArea_append (l1 l2 : List BlockRect) :
    sumArea (l1 ++ l2) = sumArea l1 + sumArea l2 := by
  simp [sumArea]

theorem rowBlocksH_width_sum (rect : Rect) (h : ℕ) :
    ∀ (row : List (ℕ × F)) (x used : ℕ), row ≠ [] →
      rect.width - used ≤ ((rowBlocksH rect h row x used).map (fun b => b.rect.width)).sum := by
  intro row
  induction row with
  | nil => intro x used hne; exact absurd rfl hne
  | cons a tail ih =>
    intro x used _
    match tail with
    | [] =>
      obtain ⟨idx, av⟩ := a
      simp [rowBlocksH]
    | b :: rest =>
      obtain ⟨idx, av⟩ := a
      have hs : satAdd used (if divRoundU16 av (F.ofN h) = 0 then 1 else divRoundU16 av (F.ofN h)) ≤
          used + (if divRoundU16 av (F.ofN h) = 0 then 1 else divRoundU16 av (F.ofN h)) :=
        Nat.min_le_left _ _
      have := ih (satAdd x (if divRoundU16 av (F.ofN h) = 0 then 1 else divRoundU16 av (F.ofN h)))
        (satAdd used (if divRoundU16 av (F.ofN h) = 0 then 1 else divRoundU16 av (F.ofN h)))
        (by simp)
      simp only [rowBlocksH, List.map_cons, List.sum_cons]
      omega

theorem rowBlocksV_height_sum (rect : Rect) (w : ℕ) :
    ∀ (row : List (ℕ × F)) (y used : ℕ), row ≠ [] →
      rect.height - used ≤ ((rowBlocksV rect w row y used).map (fun b => b.rect.height)).sum := by
  intro row
  induction row with
  | nil => intro y used hne; exact absurd rfl hne
  | cons a tail ih =>
    intro y used _
    match tail with
    | [] =>
      obtain ⟨idx, av⟩ := a
      simp [rowBlocksV]
    | b :: rest =>
      obtain ⟨idx, av⟩ := a
      have hs : satAdd used (if divRoundU16 av (F.ofN w) = 0 then 1 else divRoundU16 av (F.ofN w)) ≤
          used + (if divRoundU16 av (F.ofN w) = 0 then 1 else divRoundU16 av (F.ofN w)) :=
        Nat.min_le_left _ _
      have := ih (satAdd y (if divRoundU16 av (F.ofN w) = 0 then 1 else divRoundU16 av (F.ofN w)))
        (satAdd used (if divRoundU16 av (F.ofN w) = 0 then 1 else divRoundU16 av (F.ofN w)))
        (by simp)
      simp only [rowBlocksV, List.map_cons, List.sum_cons]
      omega

theorem rowBlocksH_sumArea (rect : Rect) (h : ℕ) :
    ∀ (row : List (ℕ × F)) (x used : ℕ),
      sumArea (rowBlocksH rect h row x used) =
        ((rowBlocksH rect h row x used).map (fun b => b.rect.width)).sum * h := by
  intro row
  induction row with
  | nil => intro x used; simp [rowBlocksH, sumArea]
  | cons a tail ih =>
    intro x used
    match tail with
    | [] =>
      obtain ⟨idx, av⟩ := a
      simp [rowBlocksH, sumArea]
    | b :: rest =>
      obtain ⟨idx, av⟩ := a
      simp only [rowBlocksH, sumArea, List.map_cons, List.sum_cons] at *
      rw [ih]
      ring

theorem rowBlocksV_sumArea (rect : Rect) (w : ℕ) :
    ∀ (row : List (ℕ × F)) (y used : ℕ),
      sumArea (rowBlocksV rect w row y used) =
        ((rowBlocksV rect w row y used).map (fun b => b.rect.height)).sum * w := by
  intro row
  induction row with
  | nil => intro y used; simp [rowBlocksV, sumArea]
  | cons a tail ih =>
    intro y used
    match tail with
    | [] =>
      obtain ⟨idx, av⟩ := a
      simp [rowBlocksV, sumArea]
      ring
    | b :: rest =>
      obtain ⟨idx, av⟩ := a
      simp only [rowBlocksV, sumArea, List.map_cons, List.sum_cons] at *
      rw [ih]
      ring

theorem layout_row_area (row : List (ℕ × F)) (rect : Rect) (isLast : Bool) (hrow : row ≠ []) :
    rect.width * rect.height ≤
      sumArea (layout_row row rect isLast).1 +
        (layout_row row rect isLast).2.width * (layout_row row rect isLast).2.height := by
  unfold layout_row
  by_cases hor : rect.height ≤ rect.width
  · simp only [hor, if_true]
    set h0 := divRoundU16 (sumF (row.map (fun p => p.2))) (F.ofN rect.width) with hh0
    set h1 := if h0 = 0 then 1 else h0 with hh1
    set h2 := if rect.height < h1 then rect.height else h1 with hh2
    set h := if isLast then rect.height else h2 with hh
    have hle : h ≤ rect.height := by
      rw [hh, hh2]
      split
      · exact le_refl _
      · split
        · exact le_refl _
        · omega
    have hw := rowBlocksH_width_sum rect h row rect.x 0 hrow
    have ha := rowBlocksH_sumArea rect h row rect.x 0
    rw [ha]
    have : rect.width ≤ ((rowBlocksH rect h row rect.x 0).map (fun b => b.rect.width)).sum := by
      omega
    calc rect.width * rect.height
        = rect.width * h + rect.width * (rect.height - h) := by
          rw [← Nat.mul_add]
          congr 1
          omega
      _ ≤ ((rowBlocksH rect h row rect.x 0).map (fun b => b.rect.width)).sum * h +
            rect.width * (rect.height - h) := by
          exact Nat.add_le_add_right (Nat.mul_le_mul_right h this) _
  · simp only [hor, if_false]
    set w0 := divRoundU16 (sumF (row.map (fun p => p.2))) (F.ofN rect.height) with hw0
    set w1 := if w0 = 0 then 1 else w0 with hw1
    set w2 := if rect.width < w1 then rect.width else w1 with hw2
    set w := if isLast then rect.width else w2 with hw
    have hle : w ≤ rect.width := by
      rw [hw, hw2]
      split
      · exact le_refl _
      · split
        · exact le_refl _
        · omega
    have hh := rowBlocksV_height_sum rect w row rect.y 0 hrow
    have ha := rowBlocksV_sumArea rect w row rect.y 0
    rw [ha]
    have : rect.height ≤ ((rowBlocksV rect w row rect.y 0).map (fun b => b.rect.height)).sum := by
      omega
    calc rect.width * rect.height
        = w * rect.height + (rect.width - w) * rect.height := by
          rw [← Nat.add_mul]
          congr 1
          omega
      _ ≤ ((rowBlocksV rect w row rect.y 0).map (fun b => b.rect.height)).sum * w +
            (rect.width - w) * rect.height := by
          rw [Nat.mul_comm w rect.height]
          exact Nat.add_le_add_right (Nat.mul_le_mul_right w this) _

theorem layout_row_last (row : List (ℕ × F)) (rect : Rect) :
    (layout_row row rect true).2.width * (layout_row row rect true).2.height = 0 := by
  unfold layout_row
  by_cases hor : rect.height ≤ rect.width
  · simp [hor]
  · simp [hor]

theorem treemapGo_area :
    ∀ (items : List (ℕ × F)) (rect : Rect) (row : List (ℕ × F)) (rmin rmax rsum : F),
      row ≠ [] ∨ items ≠ [] →
      rect.width * rect.height ≤ sumArea (treemapGo rect row rmin rmax rsum items) := by
  intro items
  induction items with
  | nil =>
    intro rect row rmin rmax rsum hne
    have hrow : row ≠ [] := by
      rcases hne with h | h
      · exact h
      · exact absurd rfl h
    have hre : row.isEmpty = false := by
      cases row
      · exact absurd rfl hrow
      · rfl
    simp only [treemapGo, hre, Bool.false_eq_true, if_false]
    have h1 := layout_row_area row rect true hrow
    have h2 := layout_row_last row rect
    omega
  | cons next rest ih =>
    intro rect row rmin rmax rsum _
    by_cases hre : row.isEmpty
    · simp only [treemapGo, hre, if_true]
      exact ih rect [next] next.2 next.2 next.2 (Or.inl (by simp))
    · simp only [treemapGo, hre, Bool.false_eq_true, if_false]
      have hrow : row ≠ [] := by
        cases row
        · simp at hre
        · simp
      by_cases hble : EF.ble
          (worst_ratio_stats (F.bmin rmin next.2) (F.bmax rmax next.2) (F.add rsum next.2)
            (F.ofN (min rect.width rect.height)))
          (worst_ratio_stats rmin rmax rsum (F.ofN (min rect.width rect.height))) = true
      · rw [if_pos hble]
        exact ih rect (row ++ [next]) _ _ _ (Or.inl (by simp))
      · rw [if_neg hble, sumArea_append]
        have h1 := layout_row_area row rect rest.isEmpty hrow
        have h2 := ih (layout_row row rect rest.isEmpty).2 [next] next.2 next.2 next.2
          (Or.inl (by simp))
        omega

/-- C1 (amended): for a non-empty all-positive weight list and a rectangle
of positive width and height, the integer areas of the rectangles returned
by `treemap` sum to at least `width * height`. -/
theorem treemap_area_ge (sizes : List (ℕ × ℕ)) (area : Rect)
    (hne : sizes ≠ []) (hw : 0 < area.width) (hh : 0 < area.height)
    (hpos : ∀ p ∈ sizes, 0 < p.2) :
    area.width * area.height ≤ sumArea (treemap sizes area) := by
  unfold treemap
  have hie : sizes.isEmpty = false := by
    cases sizes
    · exact absurd rfl hne
    · rfl
  simp only [hie, Bool.false_eq_true, false_or]
  rw [if_neg (by omega)]
  apply treemapGo_area
  right
  have hlen : (List.insertionSort descWeight
      (sizes.map (fun p => (p.1, if (sizes.map (fun p => p.2)).sum = 0 then F.ofN 1
        else F.bmax (F.ofN p.2) (F.ofN 1))))).length = sizes.length := by
    rw [List.length_insertionSort, List.length_map]
  intro hcon
  have := congrArg List.length hcon
  simp only [List.length_map, hlen, List.length_nil] at this
  exact absurd this (by intro h; exact hne (List.length_eq_zero.mp h))

/-- Witness for `treemap_area_ge` at a concrete input. -/
theorem treemap_area_ge_witness :
    1 * 1 ≤ sumArea (treemap [(0, 1)] ⟨0, 0, 1, 1⟩) :=
  treemap_area_ge [(0, 1)] ⟨0, 0, 1, 1⟩ (by decide) (by decide) (by decide)
    (by decide)

/-- The 25-weight list of the C1 counterexample: total weight 128, so all
normalized areas are exactly representable in f64 (dyadic), and the first
greedy row consists of the five weight-6 items. -/
def exC1sizes : List (ℕ × ℕ) :=
  [(0,6),(1,6),(2,6),(3,6),(4,6),
   (5,5),(6,5),(7,5),(8,5),(9,5),(10,5),(11,5),(12,5),(13,5),(14,5),
   (15,5),(16,5),(17,5),(18,5),(19,5),(20,5),(21,5),(22,5),(23,5),(24,3)]

def exC1rect : Rect := ⟨65530, 0, 6, 6⟩

/-- C1 counterexample: on the 25-weight list above and the 6×6 rectangle at
`x = 65530`, the first closed row receives rounded minimum-1 widths
2,2,2,2 that overflow the width-6 strip, so the block areas sum to 38,
not 36, and the u16 saturation of the x cursor makes two blocks of
positive area overlap. -/
theorem treemap_claim_counterexample :
    ¬ ((treemap exC1sizes exC1rect).Pairwise (fun a b => rectDisjoint a.rect b.rect)) ∧
      sumArea (treemap exC1sizes exC1rect) = 38 := by
  constructor
  · decide
  · decide

/-! ## Grid layout: exact count and positive heights -/

def sumLen (v : List (List (ℕ × F))) : ℕ := (v.map List.length).sum

theorem pushAt_length (v : List (List (ℕ × F))) (k : ℕ) (a : ℕ × F) :
    (pushAt v k a).length = v.length := by
  simp [pushAt]

theorem pushAt_getD (a : ℕ × F) :
    ∀ (v : List (List (ℕ × F))) (k r : ℕ), r < v.length →
      (pushAt v k a).getD r [] =
        if r = k then v.getD r [] ++ [a] else v.getD r [] := by
  intro v
  induction v with
  | nil => intro k r hr; simp at hr
  | cons w vs ih =>
    intro k r hr
    match k with
    | 0 =>
      match r with
      | 0 => simp [pushAt]
      | r + 1 => simp [pushAt]
    | k + 1 =>
      match r with
      | 0 => simp [pushAt]
      | r + 1 =>
        have := ih k r (by simpa using hr)
        simp only [pushAt, List.set_cons_succ, List.getD_cons_succ] at *
        simpa using this

theorem sumLen_pushAt (a : ℕ × F) :
    ∀ (v : List (List (ℕ × F))) (k : ℕ), k < v.length →
      sumLen (pushAt v k a) = sumLen v + 1 := by
  intro v
  induction v with
  | nil => intro k hk; simp at hk
  | cons w vs ih =>
    intro k hk
    match k with
    | 0 => simp [pushAt, sumLen]; omega
    | k + 1 =>
      have := ih k (by simpa using hk)
      simp only [pushAt, List.set_cons_succ, List.getD_cons_succ, sumLen, List.map_cons,
        List.sum_cons] at *
      omega

theorem distGo_length (rows : ℕ) :
    ∀ (l : List (ℕ × F)) (i : ℕ) (v : List (List (ℕ × F))),
      (distGo rows l i v).length = v.length := by
  intro l
  induction l with
  | nil => intro i v; rfl
  | cons a rest ih =>
    intro i v
    rw [distGo, ih, pushAt_length]

theorem distGo_sumLen (rows : ℕ) (hrows : 0 < rows) :
    ∀ (l : List (ℕ × F)) (i : ℕ) (v : List (List (ℕ × F))), v.length = rows →
      sumLen (distGo rows l i v) = sumLen v + l.length := by
  intro l
  induction l with
  | nil => intro i v _; simp [distGo]
  | cons a rest ih =>
    intro i v hv
    rw [distGo, ih _ _ (by rw [pushAt_length]; exact hv),
      sumLen_pushAt _ _ _ (by rw [hv]; exact Nat.mod_lt _ hrows)]
    simp
    omega

theorem distGo_getD_ne_nil (rows : ℕ) :
    ∀ (l : List (ℕ × F)) (i : ℕ) (v : List (List (ℕ × F))) (r : ℕ), r < v.length →
      (v.getD r [] ≠ [] ∨ ∃ j, j < l.length ∧ (i + j) % rows = r) →
      (distGo rows l i v).getD r [] ≠ [] := by
  intro l
  induction l with
  | nil =>
    intro i v r hr hcase
    rcases hcase with h | ⟨j, hj, _⟩
    · exact h
    · simp at hj
  | cons a rest ih =>
    intro i v r hr hcase
    rw [distGo]
    apply ih (i + 1) (pushAt v (i % rows) a) r (by rw [pushAt_length]; exact hr)
    rcases hcase with h | ⟨j, hj, hm⟩
    · left
      rw [pushAt_getD a v (i % rows) r hr]
      split
      · simp
      · exact h
    · match j with
      | 0 =>
        left
        have hri : r = i % rows := by simpa using hm.symm
        rw [pushAt_getD a v (i % rows) r hr, if_pos hri]
        simp
      | j + 1 =>
        right
        exact ⟨j, by simpa using hj, by rw [← hm]; ring_nf⟩

theorem distRR_length (rows : ℕ) (items : List (ℕ × F)) :
    (distRR rows items).length = rows := by
  rw [distRR, distGo_length, List.length_replicate]

theorem distRR_sumLen (rows : ℕ) (hrows : 0 < rows) (items : List (ℕ × F)) :
    sumLen (distRR rows items) = items.length := by
  rw [distRR, distGo_sumLen rows hrows _ _ _ (List.length_replicate _ _)]
  simp [sumLen]

theorem distRR_rows_ne_nil (rows : ℕ) (items : List (ℕ × F))
    (hrn : rows ≤ items.length) :
    ∀ row ∈ distRR rows items, row ≠ [] := by
  intro row hrow
  obtain ⟨r, hr, hget⟩ := List.mem_iff_getElem.mp hrow
  have hr2 : r < rows := by rwa [distRR_length] at hr
  have hgd : (distRR rows items).getD r [] = row := by
    rw [List.getD_eq_getElem _ _ hr, hget]
  rw [← hgd]
  apply distGo_getD_ne_nil rows items 0 _ r (by simpa using hr2)
  right
  refine ⟨r, by omega, ?_⟩
  simpa using Nat.mod_eq_of_lt hr2

theorem gridRowBlocks_length (areaW : ℕ) (rsum : F) (y h : ℕ) :
    ∀ (row : List (ℕ × F)) (x used : ℕ),
      (gridRowBlocks areaW rsum y h row x used).length = row.length := by
  intro row
  induction row with
  | nil => intro x used; rfl
  | cons a tail ih =>
    intro x used
    match tail with
    | [] =>
      obtain ⟨idx, v⟩ := a
      simp [gridRowBlocks]
    | b :: rest =>
      obtain ⟨idx, v⟩ := a
      simp only [gridRowBlocks, List.length_cons]
      rw [ih]
      simp

theorem gridRowBlocks_height (areaW : ℕ) (rsum : F) (y h : ℕ) :
    ∀ (row : List (ℕ × F)) (x used : ℕ) (b : BlockRect),
      b ∈ gridRowBlocks areaW rsum y h row x used → b.rect.height = h := by
  intro row
  induction row with
  | nil => intro x used b hb; simp [gridRowBlocks] at hb
  | cons a tail ih =>
    intro x used b hb
    match tail with
    | [] =>
      obtain ⟨idx, v⟩ := a
      simp [gridRowBlocks] at hb
      rw [hb]
    | c :: rest =>
      obtain ⟨idx, v⟩ := a
      simp only [gridRowBlocks, List.mem_cons] at hb
      rcases hb with hb | hb
      · rw [hb]
      · exact ih _ _ b hb

theorem gridRows_spec (area : Rect) (totalf : F) :
    ∀ (v : List (List (ℕ × F))) (y rem : ℕ),
      (∀ row ∈ v, row ≠ []) → v.length ≤ rem →
      (gridRows area totalf v y rem).length = sumLen v ∧
        ∀ b ∈ gridRows area totalf v y rem, 1 ≤ b.rect.height := by
  intro v
  induction v with
  | nil => intro y rem _ _; exact ⟨rfl, by intro b hb; simp [gridRows] at hb⟩
  | cons row rest ih =>
    intro y rem hne hlen
    have hrow : row ≠ [] := hne row (by simp)
    have hrest : ∀ r ∈ rest, r ≠ [] := fun r hr => hne r (by simp [hr])
    have hrem : rem ≠ 0 := by
      simp only [List.length_cons] at hlen
      omega
    have hcond : ¬ (row.isEmpty ∨ rem = 0) := by
      push_neg
      constructor
      · cases row
        · exact absurd rfl hrow
        · simp
      · exact hrem
    rw [gridRows, if_neg hcond]
    set h0 := roundU16 (F.mul (F.div (sumF (row.map (fun p => p.2))) totalf) (F.ofN area.height))
      with hh0
    set h1 := if h0 = 0 then 1 else h0 with hh1
    set maxh := rem - rest.length with hmaxh
    set h2 := if maxh < h1 then maxh else h1 with hh2
    set h := if rest.isEmpty ∨ rem < h2 then rem else h2 with hh
    have hlen2 : rest.length ≤ rem - 1 := by
      simp only [List.length_cons] at hlen
      omega
    have h1pos : 1 ≤ h1 := by
      rw [hh1]
      split
      · exact le_refl 1
      · omega
    have h2pos : 1 ≤ h2 := by
      rw [hh2]
      split
      · omega
      · exact h1pos
    have h2le : h2 ≤ maxh := by
      rw [hh2]
      split
      · exact le_refl _
      · omega
    have hpos : 1 ≤ h := by
      rw [hh]
      split
      · omega
      · exact h2pos
    have hrec : rest.length ≤ rem - h := by
      rw [hh]
      by_cases hr0 : rest.isEmpty
      · simp [hr0]
        cases rest
        · simp
        · simp at hr0
      · have : ¬ rem < h2 := by omega
        rw [if_neg (by simp [hr0, this])]
        omega
    obtain ⟨ihl, ihh⟩ := ih (satAdd y h) (rem - h) hrest hrec
    constructor
    · simp only [List.length_append, ihl, gridRowBlocks_length, sumLen, List.map_cons,
        List.sum_cons]
    · intro b hb
      rcases List.mem_append.mp hb with hb | hb
      · have := gridRowBlocks_height area.width _ y h row area.x 0 b hb
        omega
      · exact ihh b hb

theorem ceilSqrt_le (m : ℕ) : ceilSqrt m ≤ m := by
  unfold ceilSqrt
  cases hf : (List.range (m + 1)).find? (fun k => decide (m ≤ k * k)) with
  | none => exact le_refl m
  | some k =>
    show k ≤ m
    have h1 := List.mem_of_find?_eq_some hf
    have h2 := List.mem_range.mp h1
    omega

theorem ceilSqrtU16_le (m n : ℕ) (hm : m ≤ n) (hn : 0 < n) :
    max (ceilSqrtU16 m) 1 ≤ n := by
  have h1 : ceilSqrtU16 m ≤ m := le_trans (Nat.min_le_left _ _) (ceilSqrt_le m)
  omega

/-- C2 (amended): for any input list and a target rectangle with positive
width and height, `grid_layout` returns exactly as many rectangles as
there are inputs, each of height at least 1.  (The per-rectangle width
can be 0 and the tiling can overflow: see the counterexample.) -/
theorem grid_layout_count (sizes : List (ℕ × ℕ)) (area : Rect)
    (hw : 0 < area.width) (hh : 0 < area.height) :
    (grid_layout sizes area).length = sizes.length ∧
      ∀ b ∈ grid_layout sizes area, 1 ≤ b.rect.height := by
  by_cases hsz : sizes.isEmpty
  · have : sizes = [] := by
      cases sizes
      · rfl
      · simp at hsz
    subst this
    constructor
    · simp [grid_layout]
    · intro b hb
      simp [grid_layout] at hb
  · rw [grid_layout, if_neg (by simp [hsz]; omega)]
    have hne : sizes ≠ [] := by
      cases sizes
      · simp at hsz
      · simp
    set items := sizes.map (fun p => (p.1,
      if (sizes.map (fun p => p.2)).sum = 0 then F.ofN 1
      else F.bmax (F.ofN p.2) (F.ofN 1))) with hitems
    set sorted := items.insertionSort descWeight with hsorted
    have hslen : sorted.length = sizes.length := by
      rw [hsorted, List.length_insertionSort, hitems, List.length_map]
    have hspos : 0 < sorted.length := by
      rw [hslen]
      cases sizes
      · exact absurd rfl hne
      · simp
    set rows0 := max (ceilSqrtU16 (sorted.length % 4294967296)) 1 with hrows0
    set rows := if area.height < rows0 then max area.height 1 else rows0 with hrows
    have hr0n : rows0 ≤ sorted.length := by
      rw [hrows0]
      rcases Nat.lt_or_ge sorted.length 4294967296 with hc | hc
      · exact ceilSqrtU16_le _ _ (le_of_eq (Nat.mod_eq_of_lt hc)) hspos
      · have h1 : sorted.length % 4294967296 < 4294967296 := Nat.mod_lt _ (by omega)
        have h2 : ceilSqrtU16 (sorted.length % 4294967296) ≤ 65535 :=
          Nat.min_le_right _ _
        omega
    have hrpos : 0 < rows := by
      rw [hrows]
      split
      · omega
      · rw [hrows0]; omega
    have hrH : rows ≤ area.height := by
      rw [hrows]
      split
      · omega
      · omega
    have hrn : rows ≤ sorted.length := by
      rw [hrows]
      split
      · rw [hrows0] at *
        omega
      · exact hr0n
    have hvlen : (distRR rows sorted).length = rows := distRR_length rows sorted
    obtain ⟨hl, hht⟩ := gridRows_spec area _ (distRR rows sorted) area.y area.height
      (distRR_rows_ne_nil rows sorted hrn) (by omega)
    refine ⟨?_, hht⟩
    rw [hl, distRR_sumLen rows hrpos sorted, hslen]

/-- Witness for `grid_layout_count` at a concrete input. -/
theorem grid_layout_count_witness :
    (grid_layout [(0, 1)] ⟨0, 0, 1, 1⟩).length = 1 ∧
      ∀ b ∈ grid_layout [(0, 1)] ⟨0, 0, 1, 1⟩, 1 ≤ b.rect.height :=
  grid_layout_count [(0, 1)] ⟨0, 0, 1, 1⟩ (by decide) (by decide)

def exC2sizes : List (ℕ × ℕ) :=
  [(0, 1), (1, 1), (2, 1), (3, 1), (4, 1), (5, 1), (6, 1), (7, 1), (8, 1)]

def exC2rect : Rect := ⟨0, 0, 1, 9⟩

/-- C2 counterexample: nine unit weights in a 1×9 rectangle produce three
rows of three items each.  The proportional widths round to 0 and are
forced to the minimum 1, so the first two items of each row already
consume 2 units of the 1-unit target width: the second rectangle of each
row (width 1, height 3) lies entirely outside the target, and the third
gets width `1 - 2 = 0`.  Hence neither does every returned rectangle have
width at least 1, nor do the rectangles exactly tile the target (they are
not within its bounds). -/
theorem grid_layout_claim_counterexample :
    (grid_layout exC2sizes exC2rect).length = 9 ∧
      ¬ (∀ b ∈ grid_layout exC2sizes exC2rect, 1 ≤ b.rect.width) ∧
      ¬ (∀ b ∈ grid_layout exC2sizes exC2rect,
          b.rect.x + b.rect.width ≤ exC2rect.x + exC2rect.width) := by
  refine ⟨by decide, by decide, by decide⟩

/-! ## Semantics of the fraction model -/

theorem F.toRat_ofN (k : ℕ) : (F.ofN k).toRat = k := by
  simp [F.ofN, F.toRat]

theorem F.toRat_mul (a b : F) : (F.mul a b).toRat = a.toRat * b.toRat := by
  simp only [F.mul, F.toRat]
  push_cast
  rw [div_mul_div_comm]

theorem F.toRat_div (a b : F) : (F.div a b).toRat = a.toRat / b.toRat := by
  simp only [F.div, F.toRat]
  push_cast
  simp only [div_eq_mul_inv, mul_inv, inv_inv]
  ring

theorem F.ble_iff (a b : F) (ha : 0 < a.d) (hb : 0 < b.d) :
    F.ble a b = true ↔ a.toRat ≤ b.toRat := by
  have ha2 : (0 : ℚ) < (a.d : ℚ) := by exact_mod_cast ha
  have hb2 : (0 : ℚ) < (b.d : ℚ) := by exact_mod_cast hb
  rw [F.ble, decide_eq_true_iff, F.toRat, F.toRat, div_le_div_iff₀ ha2 hb2]
  constructor
  · intro h
    exact_mod_cast h
  · intro h
    exact_mod_cast h

theorem F.toRat_bmax (a b : F) (ha : 0 < a.d) (hb : 0 < b.d) :
    (F.bmax a b).toRat = max a.toRat b.toRat := by
  rw [F.bmax]
  by_cases hle : F.ble a b = true
  · rw [if_pos hle, max_eq_right ((F.ble_iff a b ha hb).mp hle)]
  · have : ¬ a.toRat ≤ b.toRat := fun hc => hle ((F.ble_iff a b ha hb).mpr hc)
    rw [if_neg (by simpa using hle), max_eq_left (le_of_not_le this)]

theorem F.toRat_pos (a : F) (hd : 0 < a.d) : 0 < a.toRat ↔ 0 < a.n := by
  have hd2 : (0 : ℚ) < (a.d : ℚ) := by exact_mod_cast hd
  rw [F.toRat, div_pos_iff]
  constructor
  · intro h
    rcases h with ⟨h1, _⟩ | ⟨_, h2⟩
    · exact_mod_cast h1
    · exact absurd hd2 (not_lt.mpr (le_of_lt h2))
  · intro h
    exact Or.inl ⟨by exact_mod_cast h, hd2⟩

theorem F.toRat_nonpos (a : F) (hd : 0 < a.d) : a.toRat ≤ 0 ↔ a.n ≤ 0 := by
  constructor
  · intro h
    by_contra hc
    exact absurd ((F.toRat_pos a hd).mpr (by omega)) (not_lt.mpr h)
  · intro h
    by_contra hc
    have := (F.toRat_pos a hd).mp (lt_of_not_le hc)
    omega

theorem F.ble_zero (a : F) : F.ble a (F.ofN 0) = decide (a.n ≤ 0) := by
  simp [F.ble, F.ofN]

/-! ## C3: the worst-aspect-ratio function and the row acceptance rule -/

/-- C3: `worst_ratio_stats` computes
`max(L^2 * max / sum^2, sum^2 / (L^2 * min))` whenever `min`, `sum` and
`L` are positive; it returns the maximal value (modelled `EF.inf`, i.e.
`f64::MAX`) whenever `min ≤ 0` or `sum ≤ 0`; and the greedy loop of
`treemap` accepts a candidate into the current row exactly when the worst
ratio computed with the candidate (against the shorter side of the
remaining rectangle) does not exceed the worst ratio without it,
otherwise it closes the row and starts a new row with the candidate. -/
theorem worst_ratio_stats_spec
    (mn mx sm short mn2 mx2 sm2 short2 : F)
    (hdmn : 0 < mn.d) (hdmx : 0 < mx.d) (hdsm : 0 < sm.d) (hdsh : 0 < short.d)
    (hmn : 0 < mn.toRat) (hsm : 0 < sm.toRat) (hsh : 0 < short.toRat)
    (hdmn2 : 0 < mn2.d) (hdsm2 : 0 < sm2.d)
    (hdeg : mn2.toRat ≤ 0 ∨ sm2.toRat ≤ 0)
    (rect : Rect) (a : ℕ × F) (row : List (ℕ × F)) (rmin rmax rsum : F)
    (next : ℕ × F) (rest : List (ℕ × F)) :
    EF.toERat (worst_ratio_stats mn mx sm short) =
      ((max (short.toRat * short.toRat * mx.toRat / (sm.toRat * sm.toRat))
        (sm.toRat * sm.toRat / (short.toRat * short.toRat * mn.toRat)) : ℚ) : WithTop ℚ)
    ∧ worst_ratio_stats mn2 mx2 sm2 short2 = EF.inf
    ∧ treemapGo rect (a :: row) rmin rmax rsum (next :: rest) =
        (if EF.ble (worst_ratio_stats (F.bmin rmin next.2) (F.bmax rmax next.2)
              (F.add rsum next.2) (F.ofN (min rect.width rect.height)))
            (worst_ratio_stats rmin rmax rsum (F.ofN (min rect.width rect.height)))
         then treemapGo rect ((a :: row) ++ [next]) (F.bmin rmin next.2)
              (F.bmax rmax next.2) (F.add rsum next.2) rest
         else (layout_row (a :: row) rect rest.isEmpty).1 ++
              treemapGo (layout_row (a :: row) rect rest.isEmpty).2 [next]
                next.2 next.2 next.2 rest) := by
  have hmnn : 0 < mn.n := (F.toRat_pos mn hdmn).mp hmn
  have hsmn : 0 < sm.n := (F.toRat_pos sm hdsm).mp hsm
  have hshn : 0 < short.n := (F.toRat_pos short hdsh).mp hsh
  refine ⟨?_, ?_, ?_⟩
  · rw [worst_ratio_stats]
    rw [if_neg (by simp [F.ble_zero]; omega), if_neg (by omega)]
    simp only [EF.toERat]
    congr 1
    have hd1 : 0 < ((F.mul (F.mul short short) mx).d * (F.mul sm sm).n) := by
      simp only [F.mul]
      positivity
    have hd2 : 0 < ((F.mul sm sm).d * (F.mul (F.mul short short) mn).n) := by
      simp only [F.mul]
      positivity
    rw [F.toRat_bmax _ _ (by simpa [F.div] using hd1) (by simpa [F.div] using hd2)]
    simp only [F.toRat_div, F.toRat_mul]
  · rw [worst_ratio_stats, if_pos]
    rcases hdeg with h | h
    · have : mn2.n ≤ 0 := (F.toRat_nonpos mn2 hdmn2).mp h
      simp [F.ble_zero, this]
    · have : sm2.n ≤ 0 := (F.toRat_nonpos sm2 hdsm2).mp h
      simp [F.ble_zero, this]
  · simp only [treemapGo, List.isEmpty_cons, Bool.false_eq_true, if_false]

/-- Witness for `worst_ratio_stats_spec` at concrete arguments. -/
theorem worst_ratio_stats_spec_witness :
    EF.toERat (worst_ratio_stats ⟨1, 1⟩ ⟨1, 1⟩ ⟨2, 1⟩ ⟨3, 1⟩) =
      ((max ((F.toRat ⟨3, 1⟩) * (F.toRat ⟨3, 1⟩) * (F.toRat ⟨1, 1⟩) /
          ((F.toRat ⟨2, 1⟩) * (F.toRat ⟨2, 1⟩)))
        ((F.toRat ⟨2, 1⟩) * (F.toRat ⟨2, 1⟩) /
          ((F.toRat ⟨3, 1⟩) * (F.toRat ⟨3, 1⟩) * (F.toRat ⟨1, 1⟩))) : ℚ) : WithTop ℚ)
    ∧ worst_ratio_stats ⟨0, 1⟩ ⟨1, 1⟩ ⟨2, 1⟩ ⟨3, 1⟩ = EF.inf
    ∧ treemapGo ⟨0, 0, 2, 2⟩ [(0, ⟨1, 1⟩)] ⟨1, 1⟩ ⟨1, 1⟩ ⟨1, 1⟩ [(1, ⟨1, 1⟩)] =
        (if EF.ble (worst_ratio_stats (F.bmin ⟨1, 1⟩ ⟨1, 1⟩) (F.bmax ⟨1, 1⟩ ⟨1, 1⟩)
              (F.add ⟨1, 1⟩ ⟨1, 1⟩) (F.ofN (min 2 2)))
            (worst_ratio_stats ⟨1, 1⟩ ⟨1, 1⟩ ⟨1, 1⟩ (F.ofN (min 2 2)))
         then treemapGo ⟨0, 0, 2, 2⟩ ([(0, ⟨1, 1⟩)] ++ [(1, ⟨1, 1⟩)])
              (F.bmin ⟨1, 1⟩ ⟨1, 1⟩) (F.bmax ⟨1, 1⟩ ⟨1, 1⟩) (F.add ⟨1, 1⟩ ⟨1, 1⟩) []
         else (layout_row [(0, ⟨1, 1⟩)] ⟨0, 0, 2, 2⟩ ([] : List (ℕ × F)).isEmpty).1 ++
              treemapGo (layout_row [(0, ⟨1, 1⟩)] ⟨0, 0, 2, 2⟩ ([] : List (ℕ × F)).isEmpty).2
                [(1, ⟨1, 1⟩)] ⟨1, 1⟩ ⟨1, 1⟩ ⟨1, 1⟩ []) :=
  worst_ratio_stats_spec ⟨1, 1⟩ ⟨1, 1⟩ ⟨2, 1⟩ ⟨3, 1⟩ ⟨0, 1⟩ ⟨1, 1⟩ ⟨2, 1⟩ ⟨3, 1⟩
    (by decide) (by decide) (by decide) (by decide)
    (by norm_num [F.toRat]) (by norm_num [F.toRat]) (by norm_num [F.toRat])
    (by decide) (by decide) (Or.inl (by norm_num [F.toRat]))
    ⟨0, 0, 2, 2⟩ (0, ⟨1, 1⟩) [] ⟨1, 1⟩ ⟨1, 1⟩ ⟨1, 1⟩ (1, ⟨1, 1⟩) []

/-! ## C9: determinism of the treemap -/

/-- C9: `treemap` is a pure deterministic function: identical inputs give
identical assignments.  The source contains no randomness or ambient
state; its float comparator treats incomparable values as equal and its
sort is stable, so the embedding fixes the same output for every call. -/
theorem treemap_deterministic (s1 s2 : List (ℕ × ℕ)) (a1 a2 : Rect)
    (h1 : s1 = s2) (h2 : a1 = a2) : treemap s1 a1 = treemap s2 a2 := by
  rw [h1, h2]

/-- Witness for `treemap_deterministic` at a concrete input. -/
theorem treemap_deterministic_witness :
    treemap [(0, 2), (1, 1)] ⟨0, 0, 3, 2⟩ = treemap [(0, 2), (1, 1)] ⟨0, 0, 3, 2⟩ :=
  treemap_deterministic [(0, 2), (1, 1)] [(0, 2), (1, 1)] ⟨0, 0, 3, 2⟩ ⟨0, 0, 3, 2⟩ rfl rfl

/-! ## scan.rs: data model -/

/-- A filesystem path: its `is_absolute` flag and its components.
Rust `Path::starts_with` is component-wise prefix matching. -/
structure FPath where
  abs : Bool
  comps : List String
deriving DecidableEq, Repr

def FPath.startsWith (p base : FPath) : Bool :=
  (p.abs == base.abs) && base.comps.isPrefixOf p.comps

/-- `is_proc_path` of scan.rs: `path.starts_with("/proc")`. -/
def is_proc_path (p : FPath) : Bool := FPath.startsWith p ⟨true, ["proc"]⟩

/-- `base.join(name)` for a single file name. -/
def joinName (b : FPath) (name : String) : FPath := ⟨b.abs, b.comps ++ [name]⟩

/-- Oracles for the effects the scan engine performs: `fs::canonicalize`
(`none` models failure) and the external `du` sizing call of
`du_size_single` (`none` models a non-zero exit status or unparsable
output; `some k` the parsed byte count). -/
structure Fs where
  canon : FPath → Option FPath
  duSize : FPath → Option ℕ

/-- `normalize_path` of scan.rs. -/
def normalize_path (fs : Fs) (base p : FPath) : FPath :=
  let joined := if p.abs then p else ⟨base.abs, base.comps ++ p.comps⟩
  (fs.canon joined).getD joined

inductive ItemKind
  | Dir
  | File
  | FilesAggregate
deriving DecidableEq, Repr

structure Item where
  name : String
  path : FPath
  size : ℕ
  kind : ItemKind
  count : ℕ
deriving DecidableEq, Repr

/-- The payload of a terminal `ScanMsg::Done`. -/
structure ScanDone where
  items : List Item
  total : ℕ
  errors : ℕ
deriving DecidableEq, Repr

inductive FType
  | symlink
  | file
  | dir
  | other
deriving DecidableEq, Repr

/-- One `read_dir` entry as probed by the scan loops: its file name, its
`entry.path()`, the result of `entry.file_type()` (`none` = error) and of
`entry.metadata().len()` (`none` = error). -/
structure DirEntry where
  name : String
  epath : FPath
  ftype : Option FType
  msize : Option ℕ
deriving DecidableEq, Repr

/-- `u64::saturating_add`. -/
def satAdd64 (a b : ℕ) : ℕ := min (a + b) 18446744073709551615

/-- `HashMap::insert` on an association list: the new binding shadows and
replaces any old binding of the same key, keeping keys distinct. -/
def insertAL (k : FPath) (v : ℕ) (l : List (FPath × ℕ)) : List (FPath × ℕ) :=
  (k, v) :: l.filter (fun p => !(p.1 == k))

/-- Mutable state of the enumeration loop of `scan_dir_approx`. -/
structure EnumState where
  items : List Item
  errors : ℕ
  scanned : ℕ
  dirNames : List (FPath × ℕ)
  filesTotal : ℕ
  filesCount : ℕ
deriving DecidableEq, Repr

def enumInit : EnumState := ⟨[], 0, 0, [], 0, 0⟩

/-- `entry.path()` if absolute, else `base_canon.join(entry.file_name())`
(lines 92–99 of scan.rs). -/
def childPathOf (baseCanon : FPath) (e : DirEntry) : FPath :=
  if e.epath.abs then e.epath else joinName baseCanon e.name

/-- One iteration of the enumeration loop of `scan_dir_approx` (lines
81–146 of scan.rs); `none` is an errored `read_dir` entry. -/
def stepDir (fs : Fs) (baseCanon : FPath) (st : EnumState) (oe : Option DirEntry) : EnumState :=
  match oe with
  | none => { st with errors := st.errors + 1 }
  | some e =>
    let childPath := childPathOf baseCanon e
    if is_proc_path childPath then st
    else
      match e.ftype with
      | none => { st with errors := st.errors + 1 }
      | some FType.symlink => st
      | some FType.file =>
          let st1 :=
            match e.msize with
            | some m => { st with filesTotal := satAdd64 st.filesTotal m }
            | none => { st with errors := st.errors + 1 }
          { st1 with filesCount := st1.filesCount + 1, scanned := st1.scanned + 1 }
      | some FType.dir =>
          { st with
            items := st.items ++ [⟨e.name, childPath, 0, ItemKind.Dir, 0⟩],
            dirNames := insertAL (normalize_path fs baseCanon childPath) st.items.length
              st.dirNames,
            scanned := st.scanned + 1 }
      | some FType.other => st

def filesLabel (c : ℕ) : String := "(Files: " ++ toString c ++ ")"

/-- `du_sizes_parallel` of scan.rs.  The worker pool pops paths from the
back of the shared job list and defaults a failed `du_size_single` call to
size 0; the model serializes the pool into the single-worker pop order
(no caller depends on the batch order).  The function never returns an
error. -/
def du_sizes_parallel (fs : Fs) (paths : List FPath) : Except String (List (FPath × ℕ)) :=
  .ok (paths.reverse.map (fun p => (p, (fs.duSize p).getD 0)))

/-- The batch-application loop of `scan_dir_approx` (lines 168–175):
look up each reported path in `dir_names` and overwrite the size of the
item at the stored index. -/
def applyBatch (fs : Fs) (baseCanon : FPath) (dirNames : List (FPath × ℕ))
    (items : List Item) (batch : List (FPath × ℕ)) : List Item :=
  batch.foldl
    (fun its pr =>
      match List.lookup (normalize_path fs baseCanon pr.1) dirNames with
      | some idx =>
        match its.get? idx with
        | some it => its.set idx { it with size := pr.2 }
        | none => its
      | none => its)
    items

/-- The `match du_sizes_parallel(...)` of `scan_dir_approx` (lines
166–180): a successful batch is applied without touching the error
counter; a failed pool construction adds the full count of pending
directories to the error counter at once. -/
def duPhase (fs : Fs) (baseCanon : FPath) (dirNames : List (FPath × ℕ)) (errors : ℕ)
    (items : List Item) (duResult : Except String (List (FPath × ℕ))) : List Item × ℕ :=
  match duResult with
  | .ok batch => (applyBatch fs baseCanon dirNames items batch, errors)
  | .error _ => (items, errors + dirNames.length)

/-- Descending size order of the final `sort_by` of both scan functions. -/
def descSize : Item → Item → Prop := fun a b => b.size ≤ a.size

instance : DecidableRel descSize := fun a b => by unfold descSize; infer_instance

instance : IsTotal Item descSize :=
  ⟨fun a b => by unfold descSize; omega⟩

instance : IsTrans Item descSize :=
  ⟨fun a b c => by unfold descSize; omega⟩

/-- Lines 148–155 of scan.rs: the item list after enumeration, with the
synthetic `FilesAggregate` item appended. -/
def scanItems1 (baseCanon : FPath) (st : EnumState) : List Item :=
  st.items ++
    [⟨filesLabel st.filesCount, baseCanon, st.filesTotal, ItemKind.FilesAggregate,
      st.filesCount⟩]

/-- Lines 157–182 of scan.rs: the item list and error counter after the
recursive sizing phase. -/
def scanPr (fs : Fs) (baseCanon : FPath) (st : EnumState) : List Item × ℕ :=
  if st.dirNames.isEmpty then (scanItems1 baseCanon st, st.errors)
  else duPhase fs baseCanon st.dirNames st.errors (scanItems1 baseCanon st)
    (du_sizes_parallel fs
      (((scanItems1 baseCanon st).filter (fun i => i.kind == ItemKind.Dir)).map
        (fun i => i.path)))

/-- Lines 148–188 of scan.rs: append the `FilesAggregate` item, resolve
the directory sizes, compute `total` (the item sizes are `u64`, whose
plain sum wraps, hence the reduction modulo `2^64`), and sort. -/
def scanDirFinish (fs : Fs) (baseCanon : FPath) (st : EnumState) : ScanDone :=
  ⟨(scanPr fs baseCanon st).1.insertionSort descSize,
   (((scanPr fs baseCanon st).1.map (fun i => i.size)).sum) % 18446744073709551616,
   (scanPr fs baseCanon st).2⟩

/-- `scan_dir_approx` of scan.rs on an uncancelled run.  `readDir` is the
outcome of `fs::read_dir` plus the iterated entries; the result is the
terminal message (`Error` string or `Done` payload).  Progress messages
and the cancellation checks are omitted: they do not affect the terminal
payload of a run that completes. -/
def scan_dir_approx (fs : Fs) (path : FPath)
    (readDir : Except String (List (Option DirEntry))) : Except String ScanDone :=
  if is_proc_path path then .error "/proc is excluded"
  else
    let baseCanon := (fs.canon path).getD path
    match readDir with
    | .error e => .error ("Failed to read dir: " ++ e)
    | .ok entries =>
      .ok (scanDirFinish fs baseCanon (entries.foldl (stepDir fs baseCanon) enumInit))

/-- Mutable state of the enumeration loop of `scan_files_direct`. -/
structure FileEnumState where
  items : List Item
  errors : ℕ
  scanned : ℕ
deriving DecidableEq, Repr

/-- One iteration of the loop of `scan_files_direct` (lines 203–254 of
scan.rs).  Note that only symlinks and directories are skipped: any other
successfully typed entry is listed as a `File`. -/
def stepFile (baseCanon : FPath) (st : FileEnumState) (oe : Option DirEntry) :
    FileEnumState :=
  match oe with
  | none => { st with errors := st.errors + 1 }
  | some e =>
    let childPath := childPathOf baseCanon e
    if is_proc_path childPath then st
    else
      match e.ftype with
      | none => { st with errors := st.errors + 1 }
      | some FType.symlink => st
      | some FType.dir => st
      | some FType.file | some FType.other =>
          let pr :=
            match e.msize with
            | some m => (m, st.errors)
            | none => (0, st.errors + 1)
          { st with
            items := st.items ++ [⟨e.name, childPath, pr.1, ItemKind.File, 0⟩],
            errors := pr.2,
            scanned := st.scanned + 1 }

/-- Lines 256–259 of scan.rs: compute `total` and sort. -/
def scanFilesFinish (st : FileEnumState) : ScanDone :=
  let total := ((st.items.map (fun i => i.size)).sum) % 18446744073709551616
  ⟨st.items.insertionSort descSize, total, st.errors⟩

/-- `scan_files_direct` of scan.rs on an uncancelled run. -/
def scan_files_direct (fs : Fs) (path : FPath)
    (readDir : Except String (List (Option DirEntry))) : Except String ScanDone :=
  if is_proc_path path then .error "/proc is excluded"
  else
    let baseCanon := (fs.canon path).getD path
    match readDir with
    | .error e => .error ("Failed to read dir: " ++ e)
    | .ok entries =>
      .ok (scanFilesFinish (entries.foldl (stepFile baseCanon) ⟨[], 0, 0⟩))

/-! ## main.rs: cache and orchestration -/

inductive ViewMode
  | Dirs
  | Files
deriving DecidableEq, Repr

abbrev CacheKey := FPath × ViewMode

structure CachedScan where
  items : List Item
  total : ℕ
  layout_sizes : List (ℕ × ℕ)
  layout_has_zero : Bool
  errors : ℕ
deriving DecidableEq, Repr

/-- The `App` fields the cache/orchestration layer reads and writes.  The
`has_handle` flag models whether `scan_handle` is `Some`; storing a cancel
signal into an old handle is an external effect with no bearing on the
orchestrator state. -/
structure AppM where
  current_path : FPath
  view_mode : ViewMode
  items : List Item
  total : ℕ
  layout_sizes : List (ℕ × ℕ)
  layout_has_zero : Bool
  scanning : Bool
  scanned : ℕ
  scanErrors : ℕ
  last_error : Option String
  scan_cache : List (CacheKey × CachedScan)
  has_handle : Bool
deriving DecidableEq, Repr

/-- `HashMap::insert` for the scan cache. -/
def cacheInsert (k : CacheKey) (c : CachedScan) (l : List (CacheKey × CachedScan)) :
    List (CacheKey × CachedScan) :=
  (k, c) :: l.filter (fun p => !(p.1 == k))

/-- `App::start_scan` (lines 105–139 of main.rs).  The returned flag
reports whether a background scan task was spawned. -/
def App_start_scan (app : AppM) : AppM × Bool :=
  match List.lookup (app.current_path, app.view_mode) app.scan_cache with
  | some cached =>
    ({ app with
        items := cached.items,
        total := cached.total,
        layout_sizes := cached.layout_sizes,
        layout_has_zero := cached.layout_has_zero,
        scanning := false,
        scanned := cached.items.length,
        scanErrors := cached.errors,
        last_error := none,
        has_handle := false }, false)
  | none =>
    ({ app with
        items := [],
        total := 0,
        layout_sizes := [],
        layout_has_zero := false,
        scanning := true,
        scanned := 0,
        scanErrors := 0,
        last_error := none,
        has_handle := true }, true)

/-- The `ScanMsg::Done` arm of `App::update_scan` (lines 170–199 of
main.rs): adopt the payload, derive layout weights and the zero-size-dir
flag, and store a `CachedScan` under the current key. -/
def App_apply_done (app : AppM) (items : List Item) (total errors : ℕ) : AppM :=
  let ls := items.enum.map (fun p => (p.1, p.2.size))
  let hz := items.any (fun i => i.size == 0 && i.kind == ItemKind.Dir)
  let cached : CachedScan := ⟨items, total, ls, hz, errors⟩
  { app with
      items := items,
      total := total,
      layout_sizes := ls,
      layout_has_zero := hz,
      scan_cache := cacheInsert (app.current_path, app.view_mode) cached app.scan_cache,
      scanned := items.length,
      scanErrors := errors,
      scanning := false }

/-- `App::invalidate_cache_for` (lines 141–145 of main.rs). -/
def App_invalidate_cache_for (fs : Fs) (app : AppM) (path : FPath) : AppM :=
  let target := (fs.canon path).getD path
  { app with
      scan_cache := app.scan_cache.filter
        (fun kv => !(FPath.startsWith kv.1.1 target) && !(FPath.startsWith target kv.1.1)) }

/-! ## C4: the Done payload sums and sorts its items -/

theorem scan_dir_done_shape (fs : Fs) (p : FPath)
    (rd : Except String (List (Option DirEntry))) (d : ScanDone)
    (h : scan_dir_approx fs p rd = .ok d) :
    d.total = (d.items.map (fun i => i.size)).sum % 18446744073709551616 ∧
      d.items.Pairwise descSize := by
  rw [scan_dir_approx] at h
  split at h
  · exact absurd h (by simp)
  · split at h
    · exact absurd h (by simp)
    · rw [Except.ok.injEq] at h
      subst h
      refine ⟨?_, List.sorted_insertionSort descSize _⟩
      exact congrArg (fun t => t % 18446744073709551616)
        (((List.perm_insertionSort descSize _).map (fun i => i.size)).sum_eq).symm

theorem scan_files_done_shape (fs : Fs) (p : FPath)
    (rd : Except String (List (Option DirEntry))) (d : ScanDone)
    (h : scan_files_direct fs p rd = .ok d) :
    d.total = (d.items.map (fun i => i.size)).sum % 18446744073709551616 ∧
      d.items.Pairwise descSize := by
  rw [scan_files_direct] at h
  split at h
  · exact absurd h (by simp)
  · split at h
    · exact absurd h (by simp)
    · rw [Except.ok.injEq] at h
      subst h
      refine ⟨?_, List.sorted_insertionSort descSize _⟩
      exact congrArg (fun t => t % 18446744073709551616)
        (((List.perm_insertionSort descSize _).map (fun i => i.size)).sum_eq).symm

/-- C4: in both view modes, a terminal `Done` message carries a `total`
equal to the sum of the sizes of its items (the `u64` sum; the stated
equality holds whenever that sum does not overflow, which the `total`
field cannot distinguish), and its items sorted in non-increasing order
of size. -/
theorem scan_done_total_sorted (fs fs2 : Fs) (p p2 : FPath)
    (rd rd2 : Except String (List (Option DirEntry))) (d1 d2 : ScanDone)
    (h1 : scan_dir_approx fs p rd = .ok d1)
    (h2 : scan_files_direct fs2 p2 rd2 = .ok d2)
    (hov1 : (d1.items.map (fun i => i.size)).sum < 18446744073709551616)
    (hov2 : (d2.items.map (fun i => i.size)).sum < 18446744073709551616) :
    d1.total = (d1.items.map (fun i => i.size)).sum ∧ d1.items.Pairwise descSize ∧
      d2.total = (d2.items.map (fun i => i.size)).sum ∧ d2.items.Pairwise descSize := by
  obtain ⟨ht1, hs1⟩ := scan_dir_done_shape fs p rd d1 h1
  obtain ⟨ht2, hs2⟩ := scan_files_done_shape fs2 p2 rd2 d2 h2
  exact ⟨by rw [ht1, Nat.mod_eq_of_lt hov1], hs1,
    by rw [ht2, Nat.mod_eq_of_lt hov2], hs2⟩

/-- An oracle with no canonicalization and a failing sizing command. -/
def fsNone : Fs := ⟨fun _ => none, fun _ => none⟩

def rootA : FPath := ⟨true, ["a"]⟩

/-- Witness for `scan_done_total_sorted`: scanning an empty directory in
both modes. -/
theorem scan_done_total_sorted_witness :
    (⟨[⟨filesLabel 0, rootA, 0, ItemKind.FilesAggregate, 0⟩], 0, 0⟩ : ScanDone).total =
        (((⟨[⟨filesLabel 0, rootA, 0, ItemKind.FilesAggregate, 0⟩], 0, 0⟩ : ScanDone)).items.map
          (fun i => i.size)).sum ∧
      (⟨[⟨filesLabel 0, rootA, 0, ItemKind.FilesAggregate, 0⟩], 0, 0⟩ : ScanDone).items.Pairwise
        descSize ∧
      (⟨[], 0, 0⟩ : ScanDone).total = (((⟨[], 0, 0⟩ : ScanDone)).items.map
        (fun i => i.size)).sum ∧
      (⟨[], 0, 0⟩ : ScanDone).items.Pairwise descSize :=
  scan_done_total_sorted fsNone fsNone rootA rootA (.ok []) (.ok [])
    ⟨[⟨filesLabel 0, rootA, 0, ItemKind.FilesAggregate, 0⟩], 0, 0⟩ ⟨[], 0, 0⟩
    (by rfl) (by rfl) (by decide) (by decide)

/-! ## C5: invalidation scope -/

def pathSlashA : FPath := ⟨true, ["a"]⟩

def pathSlashAB : FPath := ⟨true, ["a", "b"]⟩

def pathSlashAC : FPath := ⟨true, ["a", "c"]⟩

def csExA : CachedScan := ⟨[], 0, [], false, 0⟩

def csExAB : CachedScan := ⟨[], 1, [], false, 0⟩

def csExAC : CachedScan := ⟨[], 2, [], false, 0⟩

def appExInv : AppM :=
  ⟨rootA, ViewMode.Dirs, [], 0, [], false, false, 0, 0, none,
    [((pathSlashA, ViewMode.Dirs), csExA),
     ((pathSlashAB, ViewMode.Dirs), csExAB),
     ((pathSlashAC, ViewMode.Dirs), csExAC)], false⟩

/-- C5: `invalidate_cache_for` retains exactly the cache entries whose key
path is neither an ancestor-or-self nor a descendant-or-self of the
canonicalization of the mutated path (falling back to the literal path),
keeping them unchanged and in order; in particular, with entries for
`/a`, `/a/b` and `/a/c`, invalidating `/a/b` removes `/a` and `/a/b` and
leaves `/a/c`. -/
theorem invalidate_cache_spec (fs : Fs) (app : AppM) (p : FPath)
    (kv : CacheKey × CachedScan) :
    (kv ∈ (App_invalidate_cache_for fs app p).scan_cache ↔
      kv ∈ app.scan_cache ∧
        ¬ FPath.startsWith kv.1.1 ((fs.canon p).getD p) = true ∧
        ¬ FPath.startsWith ((fs.canon p).getD p) kv.1.1 = true)
    ∧ (App_invalidate_cache_for fsNone appExInv pathSlashAB).scan_cache =
        [((pathSlashAC, ViewMode.Dirs), csExAC)] := by
  constructor
  · rw [App_invalidate_cache_for]
    simp only [List.mem_filter, Bool.and_eq_true, Bool.not_eq_true']
    constructor
    · rintro ⟨hm, h1, h2⟩
      exact ⟨hm, by simp [h1], by simp [h2]⟩
    · rintro ⟨hm, h1, h2⟩
      exact ⟨hm, by simpa using h1, by simpa using h2⟩
  · decide

/-! ## C6: synchronous cache adoption -/

/-- C6: when the scan cache holds an entry for the current
`(path, view mode)` key, `start_scan` adopts it synchronously: items,
total and layout weights come from the cache, the state is marked
not-scanning, any prior error is cleared, no handle is kept and no task
is spawned; and a second identical request leaves the state unchanged,
again without spawning a task, so the second call returns bit-identical
item lists and sizes. -/
theorem cache_hit_sync (app : AppM) (c : CachedScan)
    (h : List.lookup (app.current_path, app.view_mode) app.scan_cache = some c) :
    (App_start_scan app).2 = false ∧
      (App_start_scan app).1.items = c.items ∧
      (App_start_scan app).1.total = c.total ∧
      (App_start_scan app).1.layout_sizes = c.layout_sizes ∧
      (App_start_scan app).1.layout_has_zero = c.layout_has_zero ∧
      (App_start_scan app).1.scanning = false ∧
      (App_start_scan app).1.scanErrors = c.errors ∧
      (App_start_scan app).1.last_error = none ∧
      (App_start_scan app).1.has_handle = false ∧
      App_start_scan (App_start_scan app).1 = ((App_start_scan app).1, false) := by
  obtain ⟨cp, vm, it, tot, ls, lz, sc, sn, se, le, cache, hh⟩ := app
  simp only [App_start_scan] at *
  rw [h]
  simp
  rw [h]

def appExHit : AppM :=
  ⟨pathSlashA, ViewMode.Dirs, [], 0, [], false, true, 0, 0, some "boom",
    [((pathSlashA, ViewMode.Dirs), csExA)], true⟩

/-- Witness for `cache_hit_sync` at a concrete state. -/
theorem cache_hit_sync_witness :
    (App_start_scan appExHit).2 = false ∧
      (App_start_scan appExHit).1.items = csExA.items ∧
      (App_start_scan appExHit).1.total = csExA.total ∧
      (App_start_scan appExHit).1.layout_sizes = csExA.layout_sizes ∧
      (App_start_scan appExHit).1.layout_has_zero = csExA.layout_has_zero ∧
      (App_start_scan appExHit).1.scanning = false ∧
      (App_start_scan appExHit).1.scanErrors = csExA.errors ∧
      (App_start_scan appExHit).1.last_error = none ∧
      (App_start_scan appExHit).1.has_handle = false ∧
      App_start_scan (App_start_scan appExHit).1 = ((App_start_scan appExHit).1, false) :=
  cache_hit_sync appExHit csExA (by decide)

/-! ## C7: handling of virtual filesystem paths -/

def rootSlash : FPath := ⟨true, []⟩

def entProc : DirEntry := ⟨"proc", ⟨true, ["proc"]⟩, some FType.dir, none⟩

def entFileF : DirEntry := ⟨"f", ⟨true, ["f"]⟩, some FType.file, some 5⟩

/-- C7 counterexample: scanning `/` with a discovered `/proc` entry is not
fatal.  The `/proc` child is silently skipped and the scan still emits a
`Done` message with a non-empty item list, contradicting the claim that a
discovered path under `/proc` terminates the scan with an `Error` and no
items. -/
theorem scan_discovered_proc_counterexample :
    scan_dir_approx fsNone rootSlash (.ok [some entProc, some entFileF]) =
        .ok ⟨[⟨filesLabel 1, rootSlash, 5, ItemKind.FilesAggregate, 1⟩], 5, 0⟩ ∧
      ([⟨filesLabel 1, rootSlash, 5, ItemKind.FilesAggregate, 1⟩] : List Item) ≠ [] := by
  exact ⟨by rfl, by decide⟩

/-- C7 (amended): a root path under `/proc` is fatal for both view modes —
the scan terminates with the terminal `Error` message before any
enumeration and produces no items — while a path under `/proc` that is
merely discovered during enumeration is silently skipped: the scan
behaves exactly as if the entry were absent. -/
theorem scan_proc_root_fatal (fs : Fs) (p q : FPath)
    (rd : Except String (List (Option DirEntry)))
    (hp : is_proc_path p = true)
    (l1 l2 : List (Option DirEntry)) (e : DirEntry)
    (he : is_proc_path (childPathOf ((fs.canon q).getD q) e) = true) :
    scan_dir_approx fs p rd = .error "/proc is excluded" ∧
      scan_files_direct fs p rd = .error "/proc is excluded" ∧
      scan_dir_approx fs q (.ok (l1 ++ some e :: l2)) =
        scan_dir_approx fs q (.ok (l1 ++ l2)) ∧
      scan_files_direct fs q (.ok (l1 ++ some e :: l2)) =
        scan_files_direct fs q (.ok (l1 ++ l2)) := by
  have hsd : ∀ st, stepDir fs ((fs.canon q).getD q) st (some e) = st := by
    intro st
    rw [stepDir]
    simp [he]
  have hsf : ∀ st, stepFile ((fs.canon q).getD q) st (some e) = st := by
    intro st
    rw [stepFile]
    simp [he]
  refine ⟨by rw [scan_dir_approx, if_pos hp], by rw [scan_files_direct, if_pos hp], ?_, ?_⟩
  · rw [scan_dir_approx, scan_dir_approx]
    by_cases hq : is_proc_path q
    · rw [if_pos hq, if_pos hq]
    · rw [if_neg hq, if_neg hq]
      have hfd : (l1 ++ some e :: l2).foldl (stepDir fs ((fs.canon q).getD q)) enumInit =
          (l1 ++ l2).foldl (stepDir fs ((fs.canon q).getD q)) enumInit := by
        rw [List.foldl_append, List.foldl_append, List.foldl_cons, hsd]
      exact congrArg
        (fun st => (Except.ok (scanDirFinish fs ((fs.canon q).getD q) st) :
          Except String ScanDone)) hfd
  · rw [scan_files_direct, scan_files_direct]
    by_cases hq : is_proc_path q
    · rw [if_pos hq, if_pos hq]
    · rw [if_neg hq, if_neg hq]
      have hff : (l1 ++ some e :: l2).foldl (stepFile ((fs.canon q).getD q)) ⟨[], 0, 0⟩ =
          (l1 ++ l2).foldl (stepFile ((fs.canon q).getD q)) ⟨[], 0, 0⟩ := by
        rw [List.foldl_append, List.foldl_append, List.foldl_cons, hsf]
      exact congrArg
        (fun st => (Except.ok (scanFilesFinish st) : Except String ScanDone)) hff

/-- Witness for `scan_proc_root_fatal` at concrete arguments. -/
theorem scan_proc_root_fatal_witness :
    scan_dir_approx fsNone ⟨true, ["proc", "x"]⟩ (.ok []) = .error "/proc is excluded" ∧
      scan_files_direct fsNone ⟨true, ["proc", "x"]⟩ (.ok []) = .error "/proc is excluded" ∧
      scan_dir_approx fsNone rootSlash (.ok ([] ++ some entProc :: [])) =
        scan_dir_approx fsNone rootSlash (.ok ([] ++ [])) ∧
      scan_files_direct fsNone rootSlash (.ok ([] ++ some entProc :: [])) =
        scan_files_direct fsNone rootSlash (.ok ([] ++ [])) :=
  scan_proc_root_fatal fsNone ⟨true, ["proc", "x"]⟩ rootSlash (.ok []) (by decide)
    [] [] entProc (by decide)

/-! ## C8: error-counting asymmetry of recursive sizing -/

theorem stepDir_canon_eq (fs fs' : Fs) (hcanon : fs.canon = fs'.canon) (bc : FPath)
    (st : EnumState) (oe : Option DirEntry) :
    stepDir fs bc st oe = stepDir fs' bc st oe := by
  cases oe with
  | none => rfl
  | some e => simp only [stepDir, normalize_path, hcanon]

theorem scanPr_errors (fs : Fs) (bc : FPath) (st : EnumState) :
    (scanPr fs bc st).2 = st.errors := by
  rw [scanPr]
  by_cases h : st.dirNames.isEmpty
  · simp [h]
  · simp [h, duPhase, du_sizes_parallel]

theorem scanDirFinish_errors (fs : Fs) (bc : FPath) (st : EnumState) :
    (scanDirFinish fs bc st).errors = st.errors := by
  rw [scanDirFinish]
  exact scanPr_errors fs bc st

theorem scan_dir_ok_inv (fs : Fs) (p : FPath)
    (rd : Except String (List (Option DirEntry))) (d : ScanDone)
    (h : scan_dir_approx fs p rd = .ok d) :
    ∃ entries, rd = .ok entries ∧
      d = scanDirFinish fs ((fs.canon p).getD p)
        (entries.foldl (stepDir fs ((fs.canon p).getD p)) enumInit) := by
  cases rd with
  | error e =>
    rw [scan_dir_approx] at h
    split at h
    · exact absurd h (by simp)
    · exact absurd h (by simp)
  | ok entries =>
    rw [scan_dir_approx] at h
    split at h
    · exact absurd h (by simp)
    · have h2 : (Except.ok (scanDirFinish fs ((fs.canon p).getD p)
          (entries.foldl (stepDir fs ((fs.canon p).getD p)) enumInit)) :
            Except String ScanDone) = .ok d := h
      exact ⟨entries, rfl, (Except.ok.inj h2).symm⟩

theorem dir_items_size_zero_foldl (fs : Fs) (bc : FPath) :
    ∀ (entries : List (Option DirEntry)) (st : EnumState),
      (∀ it ∈ st.items, it.kind = ItemKind.Dir → it.size = 0) →
      ∀ it ∈ (entries.foldl (stepDir fs bc) st).items, it.kind = ItemKind.Dir → it.size = 0 := by
  intro entries
  induction entries with
  | nil => intro st hst; exact hst
  | cons oe rest ih =>
    intro st hst
    rw [List.foldl_cons]
    apply ih
    intro it hit
    match oe with
    | none => exact hst it hit
    | some e =>
      rw [stepDir] at hit
      simp only at hit
      by_cases hproc : is_proc_path (childPathOf bc e)
      · rw [if_pos hproc] at hit
        exact hst it hit
      · rw [if_neg hproc] at hit
        match hft : e.ftype with
        | none => rw [hft] at hit; exact hst it hit
        | some FType.symlink => rw [hft] at hit; exact hst it hit
        | some FType.file =>
          rw [hft] at hit
          simp only at hit
          rcases hms : e.msize with _ | m <;> rw [hms] at hit <;> exact hst it hit
        | some FType.dir =>
          rw [hft] at hit
          simp only [List.mem_append, List.mem_singleton] at hit
          rcases hit with hit | hit
          · exact hst it hit
          · intro _
            rw [hit]
        | some FType.other => rw [hft] at hit; exact hst it hit

theorem applyBatch_dir_size_zero (fs : Fs) (bc : FPath) (dn : List (FPath × ℕ)) :
    ∀ (batch : List (FPath × ℕ)) (items : List Item),
      (∀ pr ∈ batch, pr.2 = 0) →
      (∀ it ∈ items, it.kind = ItemKind.Dir → it.size = 0) →
      ∀ it ∈ applyBatch fs bc dn items batch, it.kind = ItemKind.Dir → it.size = 0 := by
  intro batch
  induction batch with
  | nil => intro items _ hinv; exact hinv
  | cons pr rest ih =>
    intro items hz hinv
    rw [applyBatch, List.foldl_cons, ← applyBatch]
    have hz0 : pr.2 = 0 := hz pr (by simp)
    have hzr : ∀ q ∈ rest, q.2 = 0 := fun q hq => hz q (by simp [hq])
    apply ih _ hzr
    match List.lookup (normalize_path fs bc pr.1) dn with
    | none => exact hinv
    | some idx =>
      match hgt : items.get? idx with
      | none =>
        simp only [hgt]
        exact hinv
      | some it0 =>
        simp only [hgt]
        intro it hit
        rcases List.mem_or_eq_of_mem_set hit with hmem | heq
        · exact hinv it hmem
        · intro _
          rw [heq, hz0]

theorem scanPr_dir_size_zero (fs : Fs) (bc : FPath) (st : EnumState)
    (hfail : ∀ r, fs.duSize r = none)
    (hinv : ∀ it ∈ st.items, it.kind = ItemKind.Dir → it.size = 0) :
    ∀ it ∈ (scanPr fs bc st).1, it.kind = ItemKind.Dir → it.size = 0 := by
  have hinv1 : ∀ it ∈ scanItems1 bc st, it.kind = ItemKind.Dir → it.size = 0 := by
    intro it hm
    rcases List.mem_append.mp hm with hm | hm
    · exact hinv it hm
    · intro hk
      simp only [List.mem_singleton] at hm
      rw [hm] at hk
      exact absurd hk (by simp)
  rw [scanPr]
  by_cases hdn : st.dirNames.isEmpty
  · rw [if_pos hdn]
    exact hinv1
  · rw [if_neg hdn]
    simp only [du_sizes_parallel, duPhase]
    apply applyBatch_dir_size_zero fs bc _ _ _ _ hinv1
    intro pr hpr
    obtain ⟨r, _, hr⟩ := List.mem_map.mp hpr
    rw [← hr, hfail r]
    rfl

theorem scanDirFinish_dir_size_zero (fs : Fs) (bc : FPath) (st : EnumState)
    (hfail : ∀ r, fs.duSize r = none)
    (hinv : ∀ it ∈ st.items, it.kind = ItemKind.Dir → it.size = 0) :
    ∀ it ∈ (scanDirFinish fs bc st).items, it.kind = ItemKind.Dir → it.size = 0 := by
  intro it hit
  rw [scanDirFinish] at hit
  have hit2 := (List.perm_insertionSort descSize ((scanPr fs bc st).1)).mem_iff.mp hit
  exact scanPr_dir_size_zero fs bc st hfail hinv it hit2

/-- C8: a worker that fails to size a directory reports size 0 for it and
the error counter is unaffected by sizing outcomes; the only increment
tied to recursive sizing is the `Err` arm of the `du_sizes_parallel`
match, which adds the full count of pending directories at once (and
which, since `du_sizes_parallel` always returns `Ok`, can only fire for a
pool-construction failure). -/
theorem du_failure_asymmetry
    (fs fs' : Fs) (p : FPath) (rd : Except String (List (Option DirEntry)))
    (d d' : ScanDone) (bc : FPath) (dn : List (FPath × ℕ)) (errs : ℕ)
    (items : List Item) (msg : String) (batch : List (FPath × ℕ))
    (q : FPath) (paths : List FPath)
    (hcanon : fs.canon = fs'.canon)
    (h1 : scan_dir_approx fs p rd = .ok d)
    (h2 : scan_dir_approx fs' p rd = .ok d')
    (hfail : ∀ r, fs'.duSize r = none)
    (hq : q ∈ paths) (hqf : fs.duSize q = none)
    (hok : du_sizes_parallel fs paths = .ok batch) :
    duPhase fs bc dn errs items (.error msg) = (items, errs + dn.length) ∧
      (duPhase fs bc dn errs items (.ok batch)).2 = errs ∧
      (q, 0) ∈ batch ∧
      d.errors = d'.errors ∧
      (∀ it ∈ d'.items, it.kind = ItemKind.Dir → it.size = 0) := by
  obtain ⟨entries, hrd, hd⟩ := scan_dir_ok_inv fs p rd d h1
  obtain ⟨entries', hrd', hd'⟩ := scan_dir_ok_inv fs' p rd d' h2
  have hent : entries' = entries := by
    rw [hrd] at hrd'
    exact (Except.ok.inj hrd').symm
  refine ⟨rfl, rfl, ?_, ?_, ?_⟩
  · rw [du_sizes_parallel, Except.ok.injEq] at hok
    rw [← hok]
    have hq0 : (q, 0) = (q, (fs.duSize q).getD 0) := by rw [hqf]; rfl
    rw [hq0]
    exact List.mem_map_of_mem _ (List.mem_reverse.mpr hq)
  · have hfn : stepDir fs ((fs'.canon p).getD p) = stepDir fs' ((fs'.canon p).getD p) := by
      funext st oe
      exact stepDir_canon_eq fs fs' hcanon _ st oe
    have hfold : entries.foldl (stepDir fs ((fs.canon p).getD p)) enumInit =
        entries'.foldl (stepDir fs' ((fs'.canon p).getD p)) enumInit := by
      rw [hent, hcanon, hfn]
    rw [hd, hd', scanDirFinish_errors, scanDirFinish_errors, ← hcanon, hfold, hcanon]
  · rw [hd']
    apply scanDirFinish_dir_size_zero fs' _ _ hfail
    apply dir_items_size_zero_foldl
    intro it hit
    simp [enumInit] at hit

def dEmptyDone : ScanDone :=
  ⟨[⟨filesLabel 0, rootA, 0, ItemKind.FilesAggregate, 0⟩], 0, 0⟩

/-- Witness for `du_failure_asymmetry` at concrete arguments. -/
theorem du_failure_asymmetry_witness :
    duPhase fsNone rootA [] 0 [] (.error "x") = ([], 0) ∧
      (duPhase fsNone rootA [] 0 [] (.ok [(rootA, 0)])).2 = 0 ∧
      (rootA, 0) ∈ [(rootA, 0)] ∧
      dEmptyDone.errors = dEmptyDone.errors ∧
      (∀ it ∈ dEmptyDone.items, it.kind = ItemKind.Dir → it.size = 0) :=
  du_failure_asymmetry fsNone fsNone rootA (.ok []) dEmptyDone dEmptyDone rootA [] 0 [] "x"
    [(rootA, 0)] rootA [rootA] rfl (by rfl) (by rfl) (fun _ => rfl) (by decide) rfl (by rfl)

/-! ## C10: exactly one FilesAggregate item in Dirs mode -/

theorem foldl_items_kind_dir (fs : Fs) (bc : FPath) :
    ∀ (entries : List (Option DirEntry)) (st : EnumState),
      (∀ it ∈ st.items, it.kind = ItemKind.Dir) →
      ∀ it ∈ (entries.foldl (stepDir fs bc) st).items, it.kind = ItemKind.Dir := by
  intro entries
  induction entries with
  | nil => intro st hst; exact hst
  | cons oe rest ih =>
    intro st hst
    rw [List.foldl_cons]
    apply ih
    intro it hit
    match oe with
    | none => exact hst it hit
    | some e =>
      rw [stepDir] at hit
      simp only at hit
      by_cases hproc : is_proc_path (childPathOf bc e)
      · rw [if_pos hproc] at hit
        exact hst it hit
      · rw [if_neg hproc] at hit
        match hft : e.ftype with
        | none => rw [hft] at hit; exact hst it hit
        | some FType.symlink => rw [hft] at hit; exact hst it hit
        | some FType.file =>
          rw [hft] at hit
          simp only at hit
          rcases hms : e.msize with _ | m <;> rw [hms] at hit <;> exact hst it hit
        | some FType.dir =>
          rw [hft] at hit
          simp only [List.mem_append, List.mem_singleton] at hit
          rcases hit with hit | hit
          · exact hst it hit
          · rw [hit]
        | some FType.other => rw [hft] at hit; exact hst it hit

theorem stepDir_dirNames_bound (fs : Fs) (bc : FPath) (st : EnumState) (oe : Option DirEntry)
    (hst : ∀ kv ∈ st.dirNames, kv.2 < st.items.length) :
    ∀ kv ∈ (stepDir fs bc st oe).dirNames, kv.2 < (stepDir fs bc st oe).items.length := by
  match oe with
  | none => exact hst
  | some e =>
    by_cases hproc : is_proc_path (childPathOf bc e)
    · simp only [stepDir, hproc, if_true]
      exact hst
    · rcases hft : e.ftype with _ | ft
      · simp [stepDir, hproc, hft]
        exact fun a b hab => hst (a, b) hab
      · cases ft with
        | symlink =>
          simp [stepDir, hproc, hft]
          exact fun a b hab => hst (a, b) hab
        | file =>
          rcases hms : e.msize with _ | m <;> simp [stepDir, hproc, hft, hms] <;>
            exact fun a b hab => hst (a, b) hab
        | dir =>
          simp only [stepDir, hproc, hft, Bool.false_eq_true, if_false]
          intro kv hkv
          simp only [insertAL, List.mem_cons] at hkv
          simp only [List.length_append, List.length_singleton]
          rcases hkv with hkv | hkv
          · rw [hkv]
            omega
          · have := hst kv (List.mem_of_mem_filter hkv)
            omega
        | other =>
          simp [stepDir, hproc, hft]
          exact fun a b hab => hst (a, b) hab

theorem foldl_dirNames_bound (fs : Fs) (bc : FPath) :
    ∀ (entries : List (Option DirEntry)) (st : EnumState),
      (∀ kv ∈ st.dirNames, kv.2 < st.items.length) →
      ∀ kv ∈ (entries.foldl (stepDir fs bc) st).dirNames,
        kv.2 < (entries.foldl (stepDir fs bc) st).items.length := by
  intro entries
  induction entries with
  | nil => intro st hst; exact hst
  | cons oe rest ih =>
    intro st hst
    rw [List.foldl_cons]
    exact ih _ (stepDir_dirNames_bound fs bc st oe hst)

theorem set_get?_same : ∀ (l : List Item) (i : ℕ) (a : Item), l.get? i = some a → l.set i a = l
  | [], _, _, h => by simp at h
  | b :: rest, 0, a, h => by
    simp only [List.get?] at h
    rw [Option.some.injEq] at h
    rw [h]
    rfl
  | b :: rest, i + 1, a, h => by
    simp only [List.get?] at h
    rw [List.set_cons_succ, set_get?_same rest i a h]

theorem set_kind_get?_same : ∀ (l : List ItemKind) (i : ℕ) (a : ItemKind),
    l.get? i = some a → l.set i a = l
  | [], _, _, h => by simp at h
  | b :: rest, 0, a, h => by
    simp only [List.get?] at h
    rw [Option.some.injEq] at h
    rw [h]
    rfl
  | b :: rest, i + 1, a, h => by
    simp only [List.get?] at h
    rw [List.set_cons_succ, set_kind_get?_same rest i a h]

theorem applyBatch_map_kind (fs : Fs) (bc : FPath) (dn : List (FPath × ℕ)) :
    ∀ (batch : List (FPath × ℕ)) (its : List Item),
      (applyBatch fs bc dn its batch).map (fun it => it.kind) =
        its.map (fun it => it.kind) := by
  intro batch
  induction batch with
  | nil => intro its; rfl
  | cons pr rest ih =>
    intro its
    rw [applyBatch, List.foldl_cons, ← applyBatch]
    match List.lookup (normalize_path fs bc pr.1) dn with
    | none => exact ih its
    | some idx =>
      match hgt : its.get? idx with
      | none =>
        simp only [hgt]
        exact ih its
      | some it0 =>
        simp only [hgt]
        rw [ih, List.map_set]
        apply set_kind_get?_same
        rw [List.get?_eq_getElem?, List.getElem?_map, ← List.get?_eq_getElem?, hgt]
        rfl

theorem lookupAL_mem : ∀ (dn : List (FPath × ℕ)) (k : FPath) (idx : ℕ),
    List.lookup k dn = some idx → (k, idx) ∈ dn := by
  intro dn
  induction dn with
  | nil => intro k idx h; simp [List.lookup] at h
  | cons kv rest ih =>
    intro k idx h
    rw [List.lookup] at h
    by_cases hk : k == kv.1
    · rw [hk] at h
      have h2 : kv.2 = idx := Option.some.inj h
      have hkk : k = kv.1 := beq_iff_eq.mp hk
      refine List.mem_cons.mpr (Or.inl ?_)
      rw [hkk, ← h2]
    · rw [Bool.not_eq_true] at hk
      rw [hk] at h
      right
      exact ih k idx h

theorem applyBatch_get?_ge (fs : Fs) (bc : FPath) (dn : List (FPath × ℕ)) (i : ℕ)
    (hdn : ∀ kv ∈ dn, kv.2 ≠ i) :
    ∀ (batch : List (FPath × ℕ)) (its : List Item),
      (applyBatch fs bc dn its batch).get? i = its.get? i := by
  intro batch
  induction batch with
  | nil => intro its; rfl
  | cons pr rest ih =>
    intro its
    rw [applyBatch, List.foldl_cons, ← applyBatch]
    match hlk : List.lookup (normalize_path fs bc pr.1) dn with
    | none => exact ih its
    | some idx =>
      match hgt : its.get? idx with
      | none =>
        simp only [hgt]
        exact ih its
      | some it0 =>
        simp only [hgt]
        rw [ih]
        have hne : idx ≠ i := hdn (normalize_path fs bc pr.1, idx) (lookupAL_mem dn _ idx hlk)
        rw [List.get?_eq_getElem?, List.get?_eq_getElem?, List.getElem?_set_ne hne]

/-- An entry that the enumeration loop of `scan_dir_approx` counts as a
regular file of the scanned directory. -/
def isCountedFile (bc : FPath) (oe : Option DirEntry) : Bool :=
  match oe with
  | none => false
  | some e => (!is_proc_path (childPathOf bc e)) && (e.ftype == some FType.file)

theorem foldl_files_zero (fs : Fs) (bc : FPath) :
    ∀ (entries : List (Option DirEntry)) (st : EnumState),
      (∀ oe ∈ entries, isCountedFile bc oe = false) →
      (entries.foldl (stepDir fs bc) st).filesCount = st.filesCount ∧
        (entries.foldl (stepDir fs bc) st).filesTotal = st.filesTotal := by
  intro entries
  induction entries with
  | nil => intro st _; exact ⟨rfl, rfl⟩
  | cons oe rest ih =>
    intro st hcf
    rw [List.foldl_cons]
    have hoe : isCountedFile bc oe = false := hcf oe (by simp)
    have hrest : ∀ oe2 ∈ rest, isCountedFile bc oe2 = false :=
      fun oe2 h2 => hcf oe2 (by simp [h2])
    have hstep : (stepDir fs bc st oe).filesCount = st.filesCount ∧
        (stepDir fs bc st oe).filesTotal = st.filesTotal := by
      match oe with
      | none => exact ⟨rfl, rfl⟩
      | some e =>
        rw [stepDir]
        simp only
        by_cases hproc : is_proc_path (childPathOf bc e)
        · rw [if_pos hproc]
          exact ⟨rfl, rfl⟩
        · rw [if_neg hproc]
          match hft : e.ftype with
          | none => exact ⟨rfl, rfl⟩
          | some FType.symlink => exact ⟨rfl, rfl⟩
          | some FType.file =>
            rw [isCountedFile] at hoe
            simp only [hproc, hft] at hoe
            simp at hoe
          | some FType.dir => exact ⟨rfl, rfl⟩
          | some FType.other => exact ⟨rfl, rfl⟩
    obtain ⟨h1, h2⟩ := ih (stepDir fs bc st oe) hrest
    rw [h1, h2, hstep.1, hstep.2]
    exact ⟨rfl, rfl⟩

/-- C10: every Dirs-mode scan that emits `Done` carries exactly one
`FilesAggregate` item, so its item list is never empty; and when the
enumerated entries contain no counted regular file, that item is
`(Files: 0)` with size 0 and count 0. -/
theorem dirs_scan_files_aggregate (fs : Fs) (p : FPath) (l : List (Option DirEntry))
    (d : ScanDone) (h : scan_dir_approx fs p (.ok l) = .ok d) :
    d.items.countP (fun it => it.kind == ItemKind.FilesAggregate) = 1 ∧
      d.items ≠ [] ∧
      (l.all (fun oe => !isCountedFile ((fs.canon p).getD p) oe) = true →
        (⟨filesLabel 0, (fs.canon p).getD p, 0, ItemKind.FilesAggregate, 0⟩ : Item) ∈
          d.items) := by
  obtain ⟨entries, hrd, hd⟩ := scan_dir_ok_inv fs p (.ok l) d h
  have hel : l = entries := Except.ok.inj hrd
  subst hel
  set bc := (fs.canon p).getD p with hbc
  set st := l.foldl (stepDir fs bc) enumInit with hst
  have hkd : ∀ it ∈ st.items, it.kind = ItemKind.Dir :=
    foldl_items_kind_dir fs bc l enumInit (by intro it hit; simp [enumInit] at hit)
  have hbound : ∀ kv ∈ st.dirNames, kv.2 < st.items.length :=
    foldl_dirNames_bound fs bc l enumInit (by intro kv hkv; simp [enumInit] at hkv)
  have hcntmap : ∀ (L : List Item),
      L.countP (fun it => it.kind == ItemKind.FilesAggregate) =
        (L.map (fun it => it.kind)).countP (fun k => k == ItemKind.FilesAggregate) :=
    fun L => by
      rw [List.countP_map]
      rfl
  have hcnt1 : (scanItems1 bc st).countP (fun it => it.kind == ItemKind.FilesAggregate) = 1 := by
    rw [scanItems1, List.countP_append]
    have hz : st.items.countP (fun it => it.kind == ItemKind.FilesAggregate) = 0 :=
      List.countP_eq_zero.mpr (fun it hit => by rw [hkd it hit]; simp)
    rw [hz]
    rfl
  have hprcnt : (scanPr fs bc st).1.countP (fun it => it.kind == ItemKind.FilesAggregate) =
      (scanItems1 bc st).countP (fun it => it.kind == ItemKind.FilesAggregate) := by
    rw [scanPr]
    by_cases hdn : st.dirNames.isEmpty
    · rw [if_pos hdn]
    · rw [if_neg hdn]
      simp only [du_sizes_parallel, duPhase]
      rw [hcntmap, hcntmap, applyBatch_map_kind]
  have hdcnt : d.items.countP (fun it => it.kind == ItemKind.FilesAggregate) = 1 := by
    rw [hd, scanDirFinish]
    rw [(List.perm_insertionSort descSize ((scanPr fs bc st).1)).countP_eq]
    rw [hprcnt, hcnt1]
  refine ⟨hdcnt, ?_, ?_⟩
  · intro hnil
    rw [hnil] at hdcnt
    simp at hdcnt
  · intro hall
    have hcf : ∀ oe ∈ l, isCountedFile bc oe = false := by
      intro oe hoe
      have := List.all_eq_true.mp hall oe hoe
      simpa using this
    have hfz := foldl_files_zero fs bc l enumInit hcf
    have hfc : st.filesCount = 0 := hfz.1
    have hft : st.filesTotal = 0 := hfz.2
    have hagg : (scanItems1 bc st).get? st.items.length =
        some ⟨filesLabel st.filesCount, bc, st.filesTotal, ItemKind.FilesAggregate,
          st.filesCount⟩ := by
      rw [scanItems1, List.get?_eq_getElem?]
      exact List.getElem?_concat_length _ _
    have hpr : (scanPr fs bc st).1.get? st.items.length =
        (scanItems1 bc st).get? st.items.length := by
      rw [scanPr]
      by_cases hdn : st.dirNames.isEmpty
      · rw [if_pos hdn]
      · rw [if_neg hdn]
        simp only [du_sizes_parallel, duPhase]
        exact applyBatch_get?_ge fs bc st.dirNames st.items.length
          (fun kv hkv => Nat.ne_of_lt (hbound kv hkv)) _ _
    have hmem : (⟨filesLabel st.filesCount, bc, st.filesTotal, ItemKind.FilesAggregate,
        st.filesCount⟩ : Item) ∈ (scanPr fs bc st).1 :=
      List.get?_mem (by rw [hpr, hagg])
    rw [hfc, hft] at hmem
    rw [hd, scanDirFinish]
    exact (List.perm_insertionSort descSize ((scanPr fs bc st).1)).mem_iff.mpr hmem

/-- Witness for `dirs_scan_files_aggregate`: scanning an empty directory. -/
theorem dirs_scan_files_aggregate_witness :
    dEmptyDone.items.countP (fun it => it.kind == ItemKind.FilesAggregate) = 1 ∧
      dEmptyDone.items ≠ [] ∧
      (List.all [] (fun oe => !isCountedFile ((fsNone.canon rootA).getD rootA) oe) = true →
        (⟨filesLabel 0, (fsNone.canon rootA).getD rootA, 0, ItemKind.FilesAggregate, 0⟩ :
          Item) ∈ dEmptyDone.items) :=
  dirs_scan_files_aggregate fsNone rootA [] dEmptyDone (by rfl)
